import Mathlib

set_option linter.unusedSectionVars false

/-!
# Verification of the `geoip` radix tree (goutil)

Shallow embedding of the compressed binary radix tree in `geoip/tree.go` /
`geoip/geoip.go`: nodes, `Add`, `fill`, `compress`, `Lookup`, `walk`/`Dump`,
and `rangeToSubnet`.

Payloads (`Payload` interface in Go) are modelled by an arbitrary type `P`
with decidable equality.  A Go interface value of type `Payload` is either
`nil` or holds a `P`, hence `Option P` in the embedding.  Go's `==` on
interface values (used by `fill`) is structural equality of the dynamic
(type, value) pair, modelled by `=` on `Option P`; the `Equal` *method*
(used through the `vequal` helper by `Add` and `compress`) is an arbitrary
boolean function `peq : P → P → Bool` supplied as a parameter.

The Go tree is a pointer structure with parent links; `compress` walks from
a freshly written leaf upward through the parent pointers along the very
path that `Add` just descended.  The embedding therefore threads the
"compression cascade is still active" bit (Go's `mod` flag together with
`compress`'s early exit) back up the recursive descent: `mergeStep`
performs one step of `compress` at the node whose child just changed, and
the boolean returned by `addBits` tells the parent whether the cascade
continues.  This is a faithful rendering because the `compress` loop visits
exactly the ancestors of the final node of the descent, stopping at the
first one where the two-equal-sibling-leaves condition fails.
-/

namespace Goutil

namespace Geoip

/-- Go `node`: children `l`, `r` (nil-able pointers), payload `v`
(nil-able interface), flag `leaf`.  The parent pointer is not represented;
see the module comment. `N.nil` is the nil pointer. -/
inductive N (P : Type) : Type where
  | nil : N P
  | node (l r : N P) (v : Option P) (leaf : Bool) : N P
deriving DecidableEq, Repr

variable {P : Type} [DecidableEq P]

/-- Go `vequal(a, b Payload) bool`: nil handling, then the `Equal` method. -/
def vequal (peq : P → P → Bool) : Option P → Option P → Bool
  | none, none => true
  | none, some _ => false
  | some _, none => false
  | some a, some b => peq a b

/-- Go `fill(n *node, v Payload) (int64, bool)`.
The inner closure `f` is inlined into the two child cases:
nil child ⇒ `(0, true)`; leaf child ⇒ compare `n.v == v` with Go interface
equality; internal child ⇒ recurse.  Afterwards: collapse if both children
resolved, otherwise stamp a new leaf into an empty child slot, otherwise
report not uniform.  Returns (updated node, leaf-count delta, uniform). -/
def fill : N P → Option P → N P × Int × Bool
  | N.nil, _ => (N.nil, 0, true)
  | N.node l r nv nleaf, v =>
    let fl : N P × Int × Bool :=
      match l with
      | N.nil => (N.nil, 0, true)
      | N.node la lb lv true =>
        if lv = v then (N.node la lb lv true, -1, true)
        else (N.node la lb lv true, 0, false)
      | N.node la lb lv false => fill (N.node la lb lv false) v
    let fr : N P × Int × Bool :=
      match r with
      | N.nil => (N.nil, 0, true)
      | N.node ra rb rv true =>
        if rv = v then (N.node ra rb rv true, -1, true)
        else (N.node ra rb rv true, 0, false)
      | N.node ra rb rv false => fill (N.node ra rb rv false) v
    if fl.2.2 && fr.2.2 then
      (N.node N.nil N.nil v true, fl.2.1 + fr.2.1, true)
    else
      match l with
      | N.nil => (N.node (N.node N.nil N.nil v true) fr.1 nv nleaf, 1, false)
      | _ =>
        match r with
        | N.nil => (N.node fl.1 (N.node N.nil N.nil v true) nv nleaf, 1, false)
        | _ => (N.node fl.1 fr.1 nv nleaf, fl.2.1 + fr.2.1, false)

/-- One step of Go `compress` performed at the parent `p` of the node the
walk currently stands on: if both children are non-nil leaves with
`vequal` payloads, collapse `p` into a leaf carrying `p.l.v`. The boolean
reports whether the collapse happened (the walk continues upward). -/
def mergeStep (peq : P → P → Bool) (n : N P) : N P × Bool :=
  match n with
  | N.node (N.node la lb lv true) (N.node ra rb rv true) nv nleaf =>
    if vequal peq lv rv then (N.node N.nil N.nil lv true, true)
    else (N.node (N.node la lb lv true) (N.node ra rb rv true) nv nleaf, false)
  | m => (m, false)

/-- Place the target-branch child `tb` and other-branch child `ob` around
bit `b` (Go: `msb == 0` selects `l` as `tbranch`, so `b = true` means the
target branch is `r`). -/
def assemble (b : Bool) (tb ob : N P) (nv : Option P) (nleaf : Bool) : N P :=
  if b then N.node ob tb nv nleaf else N.node tb ob nv nleaf

/-- The descent loop of Go `Tree.Add`, one list element per iteration
(`bits` are the top `size` bits of the record's prefix, most significant
first).  Returns the updated subtree together with the
compression-cascade flag: `true` means the node just returned was
collapsed into a leaf by `compress` and the upward walk continues at the
caller.  The `N.nil` case is unreachable from `add` (the current node of
the Go loop is never nil). -/
def addBits (peq : P → P → Bool) : N P → List Bool → Option P → Bool → N P × Bool
  | n, [], _, _ => (n, false)
  | N.nil, _ :: _, _, _ => (N.nil, false)
  | N.node l r nv true, b :: rest, v, ow =>
    -- reached a leaf without the need to go deeper
    if !ow || vequal peq nv v then (N.node l r nv true, false)
    else
      -- split the leaf; tbranch gets r.v at the final depth, n.v otherwise
      match rest with
      | [] => mergeStep peq (assemble b (N.node N.nil N.nil v true) (N.node N.nil N.nil nv true) none false)
      | r1 :: rs =>
        let s := addBits peq (N.node N.nil N.nil nv true) (r1 :: rs) v ow
        if s.2 then mergeStep peq (assemble b s.1 (N.node N.nil N.nil nv true) none false)
        else (assemble b s.1 (N.node N.nil N.nil nv true) none false, false)
  | N.node l r nv false, b :: rest, v, ow =>
    let tb := if b then r else l
    let ob := if b then l else r
    match rest with
    | [] =>
      match tb with
      | N.nil => mergeStep peq (assemble b (N.node N.nil N.nil v true) ob nv false)
      | N.node tl tr tv tleaf =>
        if ow then mergeStep peq (assemble b (N.node N.nil N.nil v true) ob nv false)
        else (assemble b (fill (N.node tl tr tv tleaf) v).1 ob nv false, false)
    | r1 :: rs =>
      let tb0 := match tb with
        | N.nil => N.node N.nil N.nil none false
        | N.node tl tr tv tleaf => N.node tl tr tv tleaf
      let s := addBits peq tb0 (r1 :: rs) v ow
      if s.2 then mergeStep peq (assemble b s.1 ob nv false)
      else (assemble b s.1 ob nv false, false)

/-- The top `size` bits of a 32-bit prefix, most significant first
(Go: `msb := (prefix & mask) >> 31; prefix <<= 1` per iteration). -/
def pfxBits (pfx size : Nat) : List Bool :=
  (List.range size).map (fun i => pfx.testBit (31 - i))

/-- Go `NewTable()`: the tree is just its root, a zero-value node. -/
def emptyTree : N P := N.node N.nil N.nil none false

/-- Go `Tree.Add(r, overwrite)` for the record `prefix/size` with payload
`v`. -/
def add (peq : P → P → Bool) (t : N P) (pfx size : Nat) (v : Option P)
    (ow : Bool) : N P :=
  (addBits peq t (pfxBits pfx size) v ow).1

/-- The descent loop of Go `Tree.Lookup`, one list element per iteration.
`none` stands for the `panic("should not reach here")` after depth 32;
`some (v, found)` is a normal return.  The nil-node case is unreachable
from `lookup` (the loop's current node is never nil). -/
def lookupBits : N P → List Bool → Option (Option P × Bool)
  | _, [] => none
  | N.nil, _ :: _ => some (none, false)
  | N.node l r _ _, b :: rest =>
    match (if b then r else l) with
    | N.nil => some (none, false)
    | N.node _ _ cv true => some (cv, true)
    | N.node cl cr cv false => lookupBits (N.node cl cr cv false) rest

/-- All 32 bits of an address, most significant first. -/
def ipBits (ip : Nat) : List Bool :=
  (List.range 32).map (fun i => ip.testBit (31 - i))

/-- Go `Tree.Lookup(ip)`.  `none` is the defensive panic. -/
def lookup (t : N P) (ip : Nat) : Option (Option P × Bool) :=
  lookupBits t (ipBits ip)

/-- Go `Tree.walk`'s inner `f`: emit `(prefix << (32-depth), depth, v)` at
a leaf, otherwise recurse left then right, skipping nil children.  The
shift is a uint32 shift, hence the `% 2 ^ 32`. -/
def walk : N P → Nat → Nat → List (Nat × Nat × Option P)
  | N.nil, _, _ => []
  | N.node _ _ nv true, pfx, depth => [((pfx <<< (32 - depth)) % 2 ^ 32, depth, nv)]
  | N.node l r _ false, pfx, depth =>
    walk l (2 * pfx) (depth + 1) ++ walk r (2 * pfx + 1) (depth + 1)

/-- Go `Tree.Dump` (as the list of emitted records rather than the joined
string): `walk` from the root with prefix 0, depth 0. -/
def dump (t : N P) : List (Nat × Nat × Option P) :=
  walk t 0 0

/-- Dotted-quad helper: the numeric value of `a.b.c.d`. -/
def ipv4 (a b c d : Nat) : Nat :=
  ((a * 256 + b) * 256 + c) * 256 + d

/-- Some node of the tree has two children that are both leaves with
`vequal` payloads — i.e. the tree is *not* maximally compressed. -/
def hasEqSibLeaves (peq : P → P → Bool) : N P → Bool
  | N.nil => false
  | N.node l r _ _ =>
    (match l, r with
     | N.node _ _ lv true, N.node _ _ rv true => vequal peq lv rv
     | _, _ => false)
    || hasEqSibLeaves peq l || hasEqSibLeaves peq r

/-- The first loop of Go `rangeToSubnet`: `i := lxh; j := 32;
for i&1 != 0 { i >>= 1; j-- }` counts the trailing one-bits.  The Go loop
runs at most 32 times on a uint32; the fuel (33 everywhere below) makes
the recursion structural without changing any reachable value. -/
def countTrailOnes : Nat → Nat → Nat
  | 0, _ => 0
  | fuel + 1, i => if i % 2 = 1 then countTrailOnes fuel (i / 2) + 1 else 0

/-- The second loop of Go `rangeToSubnet`: `i := lxh; j := 0;
for i>>1 != 0 { i >>= 1; j++ }` finds the index of the highest set bit. -/
def msbPos : Nat → Nat → Nat
  | 0, _ => 0
  | fuel + 1, i => if i / 2 = 0 then 0 else msbPos fuel (i / 2) + 1

/-- Go `rangeToSubnet(low, high uint32) []cidr`, with explicit fuel for the
recursion (the real recursion depth is bounded by 33, see
`rangeToSubnetF_fuel`; `rangeToSubnet` passes fuel 64).  Blocks are pairs
(prefix, size).  `^(i-1)` is uint32 complement, i.e. xor with `2^32 - 1`. -/
def rangeToSubnetF : Nat → Nat → Nat → List (Nat × Nat)
  | 0, _, _ => []
  | fuel + 1, a, b =>
    let low := if a > b then b else a
    let high := if a > b then a else b
    let lxh := low ^^^ high
    let t := countTrailOnes 33 lxh
    if lxh >>> t = 0 ∧ low ||| lxh = high then
      [(low, 32 - t)]
    else
      let j := msbPos 33 lxh
      let iv := (1 <<< j : Nat)
      let sp := ((2 ^ 32 - 1) ^^^ (iv - 1)) &&& high
      rangeToSubnetF fuel low (sp - 1) ++ rangeToSubnetF fuel sp high

/-- Go `rangeToSubnet` (the fuel 64 is never exhausted on uint32 inputs). -/
def rangeToSubnet (low high : Nat) : List (Nat × Nat) :=
  rangeToSubnetF 64 low high

/-- Projection onto the left child (used to state that `fill` keeps a
conflicting leaf in place). -/
def nodeL : N P → N P
  | N.nil => N.nil
  | N.node l _ _ _ => l

/-! ### Specification vocabulary for C3 -/

/-- The last address of the CIDR block `b = (prefix, size)`. -/
def blockEnd (b : Nat × Nat) : Nat :=
  b.1 + (2 ^ (32 - b.2) - 1)

/-- Address `a` lies inside block `b`. -/
def memB (a : Nat) (b : Nat × Nat) : Prop :=
  b.1 ≤ a ∧ a ≤ blockEnd b

/-- `b` is a canonical CIDR block: size at most 32, base address inside the
32-bit space and aligned to the block size. -/
def canonicalB (b : Nat × Nat) : Prop :=
  b.2 ≤ 32 ∧ b.1 < 2 ^ 32 ∧ b.1 % 2 ^ (32 - b.2) = 0

/-- The block list `L` exactly tiles the inclusive range `[lo, hi]`, in
ascending order: each block starts right after the previous one ends, the
first starts at `lo` and the last ends at `hi` (an empty list tiles the
empty range `lo = hi + 1`). -/
def tiles : Nat → List (Nat × Nat) → Nat → Prop
  | lo, [], hi => lo = hi + 1
  | lo, b :: bs, hi => b.1 = lo ∧ blockEnd b ≤ hi ∧ tiles (blockEnd b + 1) bs hi

/-- The union of the blocks of `M` is exactly the inclusive range `[lo, hi]`. -/
def coversExactly (M : List (Nat × Nat)) (lo hi : Nat) : Prop :=
  ∀ a, (∃ b ∈ M, memB a b) ↔ (lo ≤ a ∧ a ≤ hi)

end Geoip

namespace Geoip

variable {P : Type} [DecidableEq P]

/-! ## Concrete payloads for the example-based claims

The repository's own tests use the payload type `ps string` whose `Equal`
method is exactly Go `==` on the underlying values.  `natEq` plays that
role here; payload `A` is `some 0`, payload `B` is `some 1`. -/

abbrev natEq : Nat → Nat → Bool := fun a b => a == b

/-- The tree of claim C1's failing input:
`Add(0.0.0.0/3, A, false)`, `Add(64.0.0.0/2, A, false)`,
`Add(0.0.0.0/2, A, false)` — the last insertion goes through `fill`,
which collapses `0.0.0.0/2` to a single leaf `A` but sets `mod = false`,
so `compress` never runs and the two sibling leaves `0.0.0.0/2 (A)` and
`64.0.0.0/2 (A)` survive unmerged. -/
def c1Tree : N Nat :=
  add natEq
    (add natEq
      (add natEq emptyTree (ipv4 0 0 0 0) 3 (some 0) false)
      (ipv4 64 0 0 0) 2 (some 0) false)
    (ipv4 0 0 0 0) 2 (some 0) false

/-- The tree of claim C2's failing input:
`Add(0.0.0.0/1, A, false)` then `Add(128.0.0.0/1, A, false)` — `compress`
collapses the root into a leaf, which `Dump` reports as `0.0.0.0/0 (A)`
but `Lookup` (which never examines the root's leaf flag) cannot find. -/
def c2Tree : N Nat :=
  add natEq
    (add natEq emptyTree (ipv4 0 0 0 0) 1 (some 0) false)
    (ipv4 128 0 0 0) 1 (some 0) false

/-- The tree of claim C6's failing input:
`Add(0.0.0.0/1, A, false)` then `Add(0.0.0.0/1, B, false)` — the second
insertion reaches the final depth with a non-nil target child and
`overwrite = false`, calls `fill` on the existing childless leaf, and
`fill`'s collapse branch stamps payload `B` over it. -/
def c6Tree : N Nat :=
  add natEq
    (add natEq emptyTree (ipv4 0 0 0 0) 1 (some 0) false)
    (ipv4 0 0 0 0) 1 (some 1) false

end Geoip

namespace Geoip

variable {P : Type} [DecidableEq P]

/-- C1: the claim asserts that after every `Add` no two sibling leaves hold
equal payloads (maximal compression).  The code violates it: on the input
`Add(0.0.0.0/3, A, false)`, `Add(64.0.0.0/2, A, false)`,
`Add(0.0.0.0/2, A, false)` the final insertion is routed through `fill`,
which leaves `mod = false`, so no upward compression runs and the siblings
`0.0.0.0/2 (A)` and `64.0.0.0/2 (A)` remain unmerged (the dump should have
been the single block `0.0.0.0/1 (A)`). -/
theorem claim1_sibling_leaves_equal :
    hasEqSibLeaves natEq c1Tree = true ∧
    dump c1Tree = [(ipv4 0 0 0 0, 2, some 0), (ipv4 64 0 0 0, 2, some 0)] := by
  decide

/-- C2: the claim asserts Lookup/Dump consistency.  The code violates it:
after `Add(0.0.0.0/1, A, false)` and `Add(128.0.0.0/1, A, false)`,
`compress` collapses the root into a leaf; `Dump` emits `0.0.0.0/0 (A)`,
yet `Lookup` — which starts descending without ever checking whether the
root itself is a leaf — returns found = false for every address inside
that block. -/
theorem claim2_lookup_misses_root_leaf :
    dump c2Tree = [(ipv4 0 0 0 0, 0, some 0)] ∧
    lookup c2Tree (ipv4 0 0 0 0) = some (none, false) ∧
    lookup c2Tree (ipv4 10 1 2 3) = some (none, false) ∧
    lookup c2Tree (ipv4 255 255 255 255) = some (none, false) := by
  decide

/-- C6: the claim asserts that `Add` with `overwrite = false` never changes
an existing leaf's payload.  The code violates it: after
`Add(0.0.0.0/1, A, false)`, the call `Add(0.0.0.0/1, B, false)` reaches the
final depth with a non-nil target child (the existing leaf), calls
`fill` on it, and `fill`'s both-children-resolved branch (both children
are nil) stamps payload `B` over the leaf. -/
theorem claim6_nonoverwrite_replaces_payload :
    dump (add natEq emptyTree (ipv4 0 0 0 0) 1 (some 0) false)
      = [(ipv4 0 0 0 0, 1, some 0)] ∧
    dump c6Tree = [(ipv4 0 0 0 0, 1, some 1)] := by
  decide

/-- C4: after `Add(1.0.0.4/30, A)`, `Add(1.0.0.8/30, A)`, then
`Add(1.0.0.4/32, B, overwrite=true)`, the dump is exactly
`1.0.0.4/32 (B)`, `1.0.0.5/32 (A)`, `1.0.0.6/31 (A)`, `1.0.0.8/30 (A)`,
in that order (payload `A` is `some 0`, `B` is `some 1`). -/
theorem claim4_overwrite_narrows_and_splits :
    dump (add natEq
      (add natEq (add natEq emptyTree (ipv4 1 0 0 4) 30 (some 0) false)
        (ipv4 1 0 0 8) 30 (some 0) false)
      (ipv4 1 0 0 4) 32 (some 1) true)
    = [(ipv4 1 0 0 4, 32, some 1), (ipv4 1 0 0 5, 32, some 0),
       (ipv4 1 0 0 6, 31, some 0), (ipv4 1 0 0 8, 30, some 0)] := by
  decide

/-- C5: after `Add(1.0.0.0/29, A)` and `Add(1.0.0.8/29, A)` (both
non-overwrite), the dump is exactly the single merged record
`1.0.0.0/28 (A)`. -/
theorem claim5_merge_equal_adjacent :
    dump (add natEq (add natEq emptyTree (ipv4 1 0 0 0) 29 (some 0) false)
      (ipv4 1 0 0 8) 29 (some 0) false)
    = [(ipv4 1 0 0 0, 28, some 0)] := by
  decide

/-- C10: an `Add` whose record has block size 0 (the whole address space
`0.0.0.0/0`) leaves the tree completely unchanged for every tree state,
payload, and overwrite flag: the descent loop never runs, no compression is
performed, and `Dump` and `Lookup` behave as before the call. -/
theorem claim10_size_zero_add_is_noop {P : Type} [DecidableEq P]
    (peq : P → P → Bool) (t : N P) (v : Option P) (ow : Bool) :
    add peq t 0 0 v ow = t ∧
    (addBits peq t (pfxBits 0 0) v ow).2 = false ∧
    dump (add peq t 0 0 v ow) = dump t ∧
    ∀ ip : Nat, lookup (add peq t 0 0 v ow) ip = lookup t ip := by
  have hb : pfxBits 0 0 = [] := rfl
  have h : addBits peq t (pfxBits 0 0) v ow = (t, false) := by
    rw [hb]
    rcases t with _ | ⟨l, r, nv, lf⟩
    · rfl
    · cases lf <;> rfl
  have hadd : add peq t 0 0 v ow = t := by
    simp only [add, h]
  exact ⟨hadd, by rw [h], by rw [hadd], fun ip => by rw [hadd]⟩

/-! ## Claim C9: `Lookup` never reaches the defensive panic

Every tree reachable from `NewTable` by `Add` calls with sizes in `[0, 32]`
satisfies `okDepth · 0`: leaves have nil children and internal nodes live
at depth ≤ 31. On such a tree the 32-step descent of `Lookup` always ends
at a nil child or a leaf, so the `panic("should not reach here")` after the
loop (the `none` result of `lookupBits`) is unreachable. -/

/-- Depth invariant: in a tree hanging at depth `d`, every leaf has nil
children and every internal node lies at depth ≤ 31. -/
def okDepth : N P → Nat → Prop
  | N.nil, _ => True
  | N.node l r _ true, _ => l = N.nil ∧ r = N.nil
  | N.node l r _ false, d => d ≤ 31 ∧ okDepth l (d + 1) ∧ okDepth r (d + 1)

theorem okDepth_leafN (v : Option P) (d : Nat) : okDepth (N.node N.nil N.nil v true) d :=
  ⟨rfl, rfl⟩

theorem okDepth_mergeStep (peq : P → P → Bool) {n : N P} {d : Nat}
    (h : okDepth n d) : okDepth (mergeStep peq n).1 d := by
  rcases n with _ | ⟨l, r, nv, lf⟩
  · exact h
  rcases l with _ | ⟨la, lb, lv, llf⟩
  · simpa [mergeStep] using h
  cases llf with
  | false => simpa [mergeStep] using h
  | true =>
    rcases r with _ | ⟨ra, rb, rv, rlf⟩
    · simpa [mergeStep] using h
    cases rlf with
    | false => simpa [mergeStep] using h
    | true =>
      simp only [mergeStep]
      split
      · exact ⟨rfl, rfl⟩
      · exact h

/-- The inner closure `f` of Go `fill`, as a standalone function (the
definition of `fill` inlines it for termination; this is the proof-side
view, tied to `fill` by `fill_eq`). -/
def fillAux : N P → Option P → N P × Int × Bool
  | N.nil, _ => (N.nil, 0, true)
  | N.node la lb lv true, v =>
    if lv = v then (N.node la lb lv true, -1, true)
    else (N.node la lb lv true, 0, false)
  | N.node la lb lv false, v => fill (N.node la lb lv false) v

theorem fillAux_fst (c : N P) (v : Option P) :
    (fillAux c v).1 = match c with
      | N.nil => N.nil
      | N.node la lb lv true => N.node la lb lv true
      | N.node la lb lv false => (fill (N.node la lb lv false) v).1 := by
  rcases c with _ | ⟨la, lb, lv, lf⟩
  · rfl
  · cases lf
    · rfl
    · by_cases hlv : lv = v <;> simp [fillAux, hlv]

theorem fill_eq (l r : N P) (nv : Option P) (nlf : Bool) (v : Option P) :
    fill (N.node l r nv nlf) v =
      (if (fillAux l v).2.2 && (fillAux r v).2.2 then
        (N.node N.nil N.nil v true, (fillAux l v).2.1 + (fillAux r v).2.1, true)
      else
        match l with
        | N.nil => (N.node (N.node N.nil N.nil v true) (fillAux r v).1 nv nlf, 1, false)
        | _ =>
          match r with
          | N.nil => (N.node (fillAux l v).1 (N.node N.nil N.nil v true) nv nlf, 1, false)
          | _ => (N.node (fillAux l v).1 (fillAux r v).1 nv nlf,
              (fillAux l v).2.1 + (fillAux r v).2.1, false)) := by
  rcases l with _ | ⟨la, lb, lv, llf⟩ <;> rcases r with _ | ⟨ra, rb, rv, rlf⟩
  · rfl
  · cases rlf <;> rfl
  · cases llf <;> rfl
  · cases llf <;> cases rlf <;> rfl

theorem okDepth_fill (v : Option P) :
    ∀ (n : N P) (d : Nat), okDepth n d → okDepth (fill n v).1 d := by
  intro n
  induction n with
  | nil => intro d _; trivial
  | node l r nv nlf ihl ihr =>
    intro d h
    cases nlf with
    | true =>
      obtain ⟨hl0, hr0⟩ := h
      subst hl0; subst hr0
      simp [fill, okDepth]
    | false =>
      obtain ⟨hd, hokl, hokr⟩ := h
      have hl' : okDepth (fillAux l v).1 (d + 1) := by
        rw [fillAux_fst]
        rcases l with _ | ⟨la, lb, lv, llf⟩
        · trivial
        · cases llf
          · exact ihl (d + 1) hokl
          · exact hokl
      have hr' : okDepth (fillAux r v).1 (d + 1) := by
        rw [fillAux_fst]
        rcases r with _ | ⟨ra, rb, rv, rlf⟩
        · trivial
        · cases rlf
          · exact ihr (d + 1) hokr
          · exact hokr
      rw [fill_eq]
      split
      · exact ⟨rfl, rfl⟩
      · rcases l with _ | ⟨la, lb, lv, llf⟩
        · exact ⟨hd, okDepth_leafN v (d + 1), hr'⟩
        · rcases r with _ | ⟨ra, rb, rv, rlf⟩
          · exact ⟨hd, hl', okDepth_leafN v (d + 1)⟩
          · exact ⟨hd, hl', hr'⟩

/-! Equation lemmas restating the arms of `addBits` and `lookupBits`
specialised by the shape of the bit list (all hold by computation); they
give the later proofs stable rewriting anchors. -/

theorem addBits_nil_bits (peq : P → P → Bool) (n : N P) (v : Option P)
    (ow : Bool) : addBits peq n [] v ow = (n, false) := by
  rcases n with _ | ⟨l, r, nv, lf⟩
  · rfl
  · cases lf <;> rfl

theorem addBits_nil_node (peq : P → P → Bool) (b : Bool) (rest : List Bool)
    (v : Option P) (ow : Bool) :
    addBits peq N.nil (b :: rest) v ow = (N.nil, false) := rfl

theorem addBits_leaf_last (peq : P → P → Bool) (l r : N P) (nv : Option P)
    (b : Bool) (v : Option P) (ow : Bool) :
    addBits peq (N.node l r nv true) [b] v ow =
      if !ow || vequal peq nv v then (N.node l r nv true, false)
      else mergeStep peq (assemble b (N.node N.nil N.nil v true) (N.node N.nil N.nil nv true) none false) := rfl

theorem addBits_leaf_cons (peq : P → P → Bool) (l r : N P) (nv : Option P)
    (b r1 : Bool) (rs : List Bool) (v : Option P) (ow : Bool) :
    addBits peq (N.node l r nv true) (b :: r1 :: rs) v ow =
      if !ow || vequal peq nv v then (N.node l r nv true, false)
      else
        (let s := addBits peq (N.node N.nil N.nil nv true) (r1 :: rs) v ow
        if s.2 then mergeStep peq (assemble b s.1 (N.node N.nil N.nil nv true) none false)
        else (assemble b s.1 (N.node N.nil N.nil nv true) none false, false)) := rfl

theorem addBits_internal_last (peq : P → P → Bool) (l r : N P)
    (nv : Option P) (b : Bool) (v : Option P) (ow : Bool) :
    addBits peq (N.node l r nv false) [b] v ow =
      (match (if b then r else l) with
      | N.nil => mergeStep peq (assemble b (N.node N.nil N.nil v true) (if b then l else r) nv false)
      | N.node tl tr tv tleaf =>
        if ow then mergeStep peq (assemble b (N.node N.nil N.nil v true) (if b then l else r) nv false)
        else (assemble b (fill (N.node tl tr tv tleaf) v).1
            (if b then l else r) nv false, false)) := by
  cases b <;> rfl

theorem addBits_internal_cons (peq : P → P → Bool) (l r : N P)
    (nv : Option P) (b r1 : Bool) (rs : List Bool) (v : Option P) (ow : Bool) :
    addBits peq (N.node l r nv false) (b :: r1 :: rs) v ow =
      (let s := addBits peq
        (match (if b then r else l) with
          | N.nil => N.node N.nil N.nil none false
          | N.node tl tr tv tleaf => N.node tl tr tv tleaf) (r1 :: rs) v ow
      if s.2 then mergeStep peq (assemble b s.1 (if b then l else r) nv false)
      else (assemble b s.1 (if b then l else r) nv false, false)) := by
  cases b <;> rfl

theorem lookupBits_cons (l r : N P) (nv : Option P) (lf b : Bool)
    (rest : List Bool) :
    lookupBits (N.node l r nv lf) (b :: rest) =
      (match (if b then r else l) with
      | N.nil => some (none, false)
      | N.node _ _ cv true => some (cv, true)
      | N.node cl cr cv false => lookupBits (N.node cl cr cv false) rest) := by
  cases b <;> rfl

theorem okDepth_assemble {tb ob : N P} {d : Nat} (b : Bool) (nv : Option P)
    (hd : d ≤ 31) (htb : okDepth tb (d + 1)) (hob : okDepth ob (d + 1)) :
    okDepth (assemble b tb ob nv false) d := by
  cases b
  · exact ⟨hd, htb, hob⟩
  · exact ⟨hd, hob, htb⟩

theorem okDepth_mergeOr (peq : P → P → Bool) {m : N P} {d : Nat} (c : Bool)
    (h : okDepth m d) : okDepth (if c then mergeStep peq m else (m, false)).1 d := by
  cases c
  · exact h
  · exact okDepth_mergeStep peq h

theorem okDepth_addBits (peq : P → P → Bool) (v : Option P) (ow : Bool) :
    ∀ (bits : List Bool) (n : N P) (d : Nat), okDepth n d →
      d + bits.length ≤ 32 → okDepth (addBits peq n bits v ow).1 d := by
  intro bits
  induction bits with
  | nil =>
    intro n d h _
    rw [addBits_nil_bits]
    exact h
  | cons b rest ih =>
    intro n d h hlen
    simp only [List.length_cons] at hlen
    have hd31 : d ≤ 31 := by omega
    rcases n with _ | ⟨l, r, nv, lf⟩
    · rw [addBits_nil_node]; trivial
    cases lf with
    | true =>
      cases rest with
      | nil =>
        rw [addBits_leaf_last]
        split
        · exact h
        · exact okDepth_mergeStep peq
            (okDepth_assemble b none hd31 (okDepth_leafN v _) (okDepth_leafN nv _))
      | cons r1 rs =>
        simp only [List.length_cons] at hlen
        rw [addBits_leaf_cons]
        split
        · exact h
        · have hrec : okDepth (addBits peq (N.node N.nil N.nil nv true) (r1 :: rs) v ow).1 (d + 1) := by
            refine ih (N.node N.nil N.nil nv true) (d + 1) (okDepth_leafN nv _) ?_
            simp only [List.length_cons]
            omega
          exact okDepth_mergeOr peq _
            (okDepth_assemble b none hd31 hrec (okDepth_leafN nv (d + 1)))
    | false =>
      obtain ⟨_, hokl, hokr⟩ := h
      have hob : okDepth (if b then l else r) (d + 1) := by
        cases b
        · exact hokr
        · exact hokl
      have htbok : okDepth (if b then r else l) (d + 1) := by
        cases b
        · exact hokl
        · exact hokr
      cases rest with
      | nil =>
        rw [addBits_internal_last]
        rcases htb : (if b then r else l) with _ | ⟨tl, tr, tv, tlf⟩
        · exact okDepth_mergeStep peq
            (okDepth_assemble b nv hd31 (okDepth_leafN v _) hob)
        · rw [htb] at htbok
          simp only []
          split
          · exact okDepth_mergeStep peq
              (okDepth_assemble b nv hd31 (okDepth_leafN v _) hob)
          · exact okDepth_assemble b nv hd31
              (okDepth_fill v _ (d + 1) htbok) hob
      | cons r1 rs =>
        simp only [List.length_cons] at hlen
        rw [addBits_internal_cons]
        rcases htb : (if b then r else l) with _ | ⟨tl, tr, tv, tlf⟩
        · have hrec := ih (N.node N.nil N.nil none false) (d + 1)
            ⟨by omega, trivial, trivial⟩ (by simp only [List.length_cons]; omega)
          exact okDepth_mergeOr peq _ (okDepth_assemble b nv hd31 hrec hob)
        · rw [htb] at htbok
          have hrec := ih (N.node tl tr tv tlf) (d + 1) htbok
            (by simp only [List.length_cons]; omega)
          exact okDepth_mergeOr peq _ (okDepth_assemble b nv hd31 hrec hob)

theorem okDepth_add (peq : P → P → Bool) {t : N P} (pfx size : Nat)
    (v : Option P) (ow : Bool) (h : okDepth t 0) (hsz : size ≤ 32) :
    okDepth (add peq t pfx size v ow) 0 := by
  refine okDepth_addBits peq v ow (pfxBits pfx size) t 0 h ?_
  simp only [pfxBits, List.length_map, List.length_range]
  omega

theorem okDepth_emptyTree : okDepth (emptyTree : N P) 0 :=
  ⟨by omega, trivial, trivial⟩

theorem lookupBits_isSome :
    ∀ (bits : List Bool) (n : N P) (d : Nat), okDepth n d →
      d + bits.length = 32 → d ≤ 31 → (lookupBits n bits).isSome = true := by
  intro bits
  induction bits with
  | nil =>
    intro n d _ hlen hd
    simp only [List.length_nil] at hlen
    omega
  | cons b rest ih =>
    intro n d h hlen hd
    simp only [List.length_cons] at hlen
    rcases n with _ | ⟨l, r, nv, lf⟩
    · rfl
    have hchild : okDepth (if b then r else l) (d + 1) := by
      cases lf with
      | true =>
        obtain ⟨hl0, hr0⟩ := h
        subst hl0; subst hr0
        cases b <;> trivial
      | false =>
        obtain ⟨_, hokl, hokr⟩ := h
        cases b
        · exact hokl
        · exact hokr
    rw [lookupBits_cons]
    rcases hc : (if b then r else l) with _ | ⟨cl, cr, cv, clf⟩
    · rfl
    rw [hc] at hchild
    cases clf with
    | true => rfl
    | false =>
      obtain ⟨hd1, h1, h2⟩ := hchild
      exact ih (N.node cl cr cv false) (d + 1) ⟨hd1, h1, h2⟩ (by omega) hd1

/-- Go-side build of a tree from `NewTable` by a sequence of `Add` calls;
each operation is (prefix, size, payload, overwrite). -/
def buildTree (peq : P → P → Bool)
    (ops : List (Nat × Nat × Option P × Bool)) : N P :=
  ops.foldl (fun t op => add peq t op.1 op.2.1 op.2.2.1 op.2.2.2) emptyTree

theorem okDepth_buildTree (peq : P → P → Bool)
    (ops : List (Nat × Nat × Option P × Bool))
    (hops : ∀ op ∈ ops, op.2.1 ≤ 32) : okDepth (buildTree peq ops) 0 := by
  have key : ∀ (l : List (Nat × Nat × Option P × Bool)) (t : N P),
      okDepth t 0 → (∀ op ∈ l, op.2.1 ≤ 32) →
      okDepth (l.foldl (fun t op => add peq t op.1 op.2.1 op.2.2.1 op.2.2.2) t) 0 := by
    intro l
    induction l with
    | nil => intro t h _; exact h
    | cons op rest ih =>
      intro t h hl
      refine ih _ (okDepth_add peq _ _ _ _ h (hl op (by simp))) ?_
      intro o ho
      exact hl o (by simp [ho])
  exact key ops emptyTree okDepth_emptyTree hops

/-- C9: on every tree built from `NewTable` by `Add` calls with canonical
prefixes of size in `[0, 32]`, `Lookup` resolves within the 32 descent
steps: `lookupBits` returns a value (`isSome`), i.e. the
`panic("should not reach here")` after the loop — the `none` result — is
never reached, for every 32-bit address. -/
theorem claim9_lookup_never_panics {P : Type} [DecidableEq P]
    (peq : P → P → Bool) (ops : List (Nat × Nat × Option P × Bool))
    (hops : ∀ op ∈ ops,
      op.2.1 ≤ 32 ∧ op.1 < 2 ^ 32 ∧ op.1 % 2 ^ (32 - op.2.1) = 0)
    (ip : Nat) :
    (lookup (buildTree peq ops) ip).isSome = true := by
  have hok := okDepth_buildTree peq ops (fun op h => (hops op h).1)
  have hlen : (ipBits ip).length = 32 := by
    simp [ipBits]
  exact lookupBits_isSome (ipBits ip) _ 0 hok (by omega) (by omega)

/-- Concrete instance of `claim9_lookup_never_panics`: the tree of
`Add(1.0.0.0/29, A)` looked up at `1.0.0.7`. -/
theorem claim9_lookup_never_panics_witness :
    (lookup (buildTree natEq [(ipv4 1 0 0 0, 29, some 0, false)])
      (ipv4 1 0 0 7)).isSome = true :=
  claim9_lookup_never_panics natEq [(ipv4 1 0 0 0, 29, some 0, false)]
    (by decide) (ipv4 1 0 0 7)

/-! ## Claim C7: `Add` is idempotent

Throughout this section the payload `Equal` capability `peq` is assumed to
be an equivalence (reflexive, symmetric, transitive), as an equality
comparison is.  Under that assumption a second identical `Add` leaves the
tree (hence the dump) unchanged. -/

theorem vequal_refl (peq : P → P → Bool) (hrefl : ∀ a, peq a a = true) :
    ∀ x : Option P, vequal peq x x = true
  | none => rfl
  | some a => hrefl a

theorem vequal_symm (peq : P → P → Bool)
    (hsymm : ∀ a b, peq a b = true → peq b a = true) {x y : Option P}
    (h : vequal peq x y = true) : vequal peq y x = true := by
  cases x <;> cases y <;> simp [vequal] at h ⊢
  exact hsymm _ _ h

theorem vequal_trans (peq : P → P → Bool)
    (htrans : ∀ a b c, peq a b = true → peq b c = true → peq a c = true)
    {x y z : Option P} (h1 : vequal peq x y = true)
    (h2 : vequal peq y z = true) : vequal peq x z = true := by
  cases x <;> cases y <;> cases z <;> simp [vequal] at h1 h2 ⊢
  exact htrans _ _ _ h1 h2

/-- The outcome of `fill` on a node: either the node collapsed into a
single leaf holding the new payload (`uniform = true`), or it kept its
payload and leaf flag (`uniform = false`). -/
theorem fill_shape (l r : N P) (nv : Option P) (lf : Bool) (v : Option P) :
    ((fill (N.node l r nv lf) v).2.2 = true ∧
      (fill (N.node l r nv lf) v).1 = N.node N.nil N.nil v true) ∨
    ((fill (N.node l r nv lf) v).2.2 = false ∧
      ∃ a bb, (fill (N.node l r nv lf) v).1 = N.node a bb nv lf) := by
  rw [fill_eq]
  split
  · exact Or.inl ⟨rfl, rfl⟩
  · refine Or.inr ?_
    rcases l with _ | ⟨la, lb, lv, llf⟩
    · exact ⟨rfl, _, _, rfl⟩
    · rcases r with _ | ⟨ra, rb, rv, rlf⟩
      · exact ⟨rfl, _, _, rfl⟩
      · exact ⟨rfl, _, _, rfl⟩

theorem fill_fst_ne_nil (l r : N P) (nv : Option P) (lf : Bool)
    (v : Option P) : (fill (N.node l r nv lf) v).1 ≠ N.nil := by
  rcases fill_shape l r nv lf v with ⟨_, h⟩ | ⟨_, a, bb, h⟩ <;> simp [h]

theorem fill_leafN (w v : Option P) :
    fill (N.node N.nil N.nil w true) v = (N.node N.nil N.nil v true, 0, true) :=
  rfl

/-- `fillAux` is stable on its own output, assuming stability of `fill`
on the child (the induction hypothesis in `fill_idem`). -/
theorem fillAux_stable (v : Option P) (c : N P)
    (ihc : (fill ((fill c v).1) v).1 = (fill c v).1 ∧
      (fill ((fill c v).1) v).2.2 = (fill c v).2.2) :
    (fillAux ((fillAux c v).1) v).1 = (fillAux c v).1 ∧
      (fillAux ((fillAux c v).1) v).2.2 = (fillAux c v).2.2 := by
  rcases c with _ | ⟨ca, cb, cv, clf⟩
  · exact ⟨rfl, rfl⟩
  cases clf with
  | true => by_cases hcv : cv = v <;> simp [fillAux, hcv]
  | false =>
    have hfx : fillAux (N.node ca cb cv false) v
        = fill (N.node ca cb cv false) v := rfl
    rw [hfx]
    rcases fill_shape ca cb cv false v with ⟨hu, h1⟩ | ⟨hu, a, bb, h1⟩
    · rw [h1, hu]
      constructor
      · simp [fillAux]
      · simp [fillAux]
    · rw [h1] at ihc ⊢
      have hfx2 : fillAux (N.node a bb cv false) v
          = fill (N.node a bb cv false) v := rfl
      rw [hfx2]
      exact ihc

/-- `fill` is stable on its own output: running it a second time with the
same payload changes neither the tree nor the uniform flag. -/
theorem fill_idem (v : Option P) :
    ∀ n : N P, (fill ((fill n v).1) v).1 = (fill n v).1 ∧
      (fill ((fill n v).1) v).2.2 = (fill n v).2.2 := by
  intro n
  induction n with
  | nil => exact ⟨rfl, rfl⟩
  | node l r nv lf ihl ihr =>
    have hstL := fillAux_stable v l ihl
    have hstR := fillAux_stable v r ihr
    rcases hF : fill (N.node l r nv lf) v with ⟨t1, d1, u1⟩
    show (fill t1 v).1 = t1 ∧ (fill t1 v).2.2 = u1
    rw [fill_eq] at hF
    by_cases hc : ((fillAux l v).2.2 && (fillAux r v).2.2) = true
    · rw [if_pos hc] at hF
      simp only [Prod.mk.injEq] at hF
      obtain ⟨h1, _, h3⟩ := hF
      subst h1; subst h3
      exact ⟨rfl, rfl⟩
    · rw [if_neg hc] at hF
      rcases l with _ | ⟨la, lb, lv, llf⟩
      · -- left child nil (resolved); the right child must be a node with
        -- an unresolved fill, and the second run repeats the stamp
        rcases r with _ | ⟨ra, rb, rv, rlf⟩
        · exact absurd rfl hc
        have hfr : (fillAux (N.node ra rb rv rlf) v).2.2 = false := by
          cases htmp : (fillAux (N.node ra rb rv rlf) v).2.2
          · rfl
          · exact absurd (by rw [htmp]; rfl) hc
        simp only [Prod.mk.injEq] at hF
        obtain ⟨h1, _, h3⟩ := hF
        subst h1; subst h3
        -- t1 = node (N.node N.nil N.nil v true) (fillAux r v).1 nv lf
        rcases hY : (fillAux (N.node ra rb rv rlf) v).1 with _ | ⟨ya, yb, yv, ylf⟩
        · exact absurd hY (by
            rw [fillAux_fst]
            cases rlf
            · exact fill_fst_ne_nil _ _ _ _ v
            · simp)
        rw [fill_eq]
        have hXa : fillAux (N.node N.nil N.nil v true) v = (N.node N.nil N.nil v true, -1, true) := by
          simp [fillAux]
        have hYa1 : (fillAux (N.node ya yb yv ylf) v).1 = N.node ya yb yv ylf := by
          rw [← hY, hstR.1, hY]
        have hYa2 : (fillAux (N.node ya yb yv ylf) v).2.2 = false := by
          rw [← hY, hstR.2, hfr]
        rw [if_neg (by rw [hXa, hYa2]; simp)]
        constructor
        · show N.node (fillAux (N.node N.nil N.nil v true) v).1 (fillAux (N.node ya yb yv ylf) v).1 nv lf = _
          rw [hXa, hYa1]
        · rfl
      · rcases r with _ | ⟨ra, rb, rv, rlf⟩
        · -- right child nil: the stamp goes to the right
          have hfl : (fillAux (N.node la lb lv llf) v).2.2 = false := by
            cases htmp : (fillAux (N.node la lb lv llf) v).2.2
            · rfl
            · exact absurd (by rw [htmp]; rfl) hc
          simp only [Prod.mk.injEq] at hF
          obtain ⟨h1, _, h3⟩ := hF
          subst h1; subst h3
          rcases hX : (fillAux (N.node la lb lv llf) v).1 with _ | ⟨xa, xb, xv, xlf⟩
          · exact absurd hX (by
              rw [fillAux_fst]
              cases llf
              · exact fill_fst_ne_nil _ _ _ _ v
              · simp)
          rw [fill_eq]
          have hYa : fillAux (N.node N.nil N.nil v true) v = (N.node N.nil N.nil v true, -1, true) := by
            simp [fillAux]
          have hXa1 : (fillAux (N.node xa xb xv xlf) v).1 = N.node xa xb xv xlf := by
            rw [← hX, hstL.1, hX]
          have hXa2 : (fillAux (N.node xa xb xv xlf) v).2.2 = false := by
            rw [← hX, hstL.2, hfl]
          rw [if_neg (by rw [hXa2]; simp)]
          constructor
          · show N.node (fillAux (N.node xa xb xv xlf) v).1
              (fillAux (N.node N.nil N.nil v true) v).1 nv lf = _
            rw [hYa, hXa1]
          · rfl
        · -- both children nodes
          simp only [Prod.mk.injEq] at hF
          obtain ⟨h1, _, h3⟩ := hF
          subst h1; subst h3
          rcases hX : (fillAux (N.node la lb lv llf) v).1 with _ | ⟨xa, xb, xv, xlf⟩
          · exact absurd hX (by
              rw [fillAux_fst]
              cases llf
              · exact fill_fst_ne_nil _ _ _ _ v
              · simp)
          rcases hY : (fillAux (N.node ra rb rv rlf) v).1 with _ | ⟨ya, yb, yv, ylf⟩
          · exact absurd hY (by
              rw [fillAux_fst]
              cases rlf
              · exact fill_fst_ne_nil _ _ _ _ v
              · simp)
          rw [fill_eq]
          have hXa1 : (fillAux (N.node xa xb xv xlf) v).1 = N.node xa xb xv xlf := by
            rw [← hX, hstL.1, hX]
          have hXa2 : (fillAux (N.node xa xb xv xlf) v).2.2
              = (fillAux (N.node la lb lv llf) v).2.2 := by
            rw [← hX, hstL.2]
          have hYa1 : (fillAux (N.node ya yb yv ylf) v).1 = N.node ya yb yv ylf := by
            rw [← hY, hstR.1, hY]
          have hYa2 : (fillAux (N.node ya yb yv ylf) v).2.2
              = (fillAux (N.node ra rb rv rlf) v).2.2 := by
            rw [← hY, hstR.2]
          rw [if_neg (by rw [hXa2, hYa2]; exact hc)]
          constructor
          · show N.node (fillAux (N.node xa xb xv xlf) v).1
              (fillAux (N.node ya yb yv ylf) v).1 nv lf = _
            rw [hXa1, hYa1]
          · rfl

theorem assemble_ne_nil (b : Bool) (x y : N P) (nv : Option P) (lf : Bool) :
    assemble b x y nv lf ≠ N.nil := by
  cases b <;> simp [assemble]

/-- `mergeStep` either keeps its argument or collapses it into a leaf. -/
theorem mergeStep_fst_cases (peq : P → P → Bool) (m : N P) :
    (mergeStep peq m).1 = m ∨
      ∃ w, (mergeStep peq m).1 = N.node N.nil N.nil w true := by
  rcases m with _ | ⟨l, r, nv, lf⟩
  · exact Or.inl rfl
  rcases l with _ | ⟨la, lb, lv, llf⟩
  · exact Or.inl (by simp [mergeStep])
  cases llf
  · exact Or.inl (by simp [mergeStep])
  rcases r with _ | ⟨ra, rb, rv, rlf⟩
  · exact Or.inl (by simp [mergeStep])
  cases rlf
  · exact Or.inl (by simp [mergeStep])
  simp only [mergeStep]
  split
  · exact Or.inr ⟨lv, rfl⟩
  · exact Or.inl rfl

/-- A broken-off `Add` descent (the current node is a leaf and either
`overwrite` is unset or the payloads compare equal) changes nothing. -/
theorem addBits_leaf_break (peq : P → P → Bool) (l r : N P) (nv : Option P)
    (b : Bool) (rest : List Bool) (v : Option P) (ow : Bool)
    (hbrk : (!ow || vequal peq nv v) = true) :
    addBits peq (N.node l r nv true) (b :: rest) v ow
      = (N.node l r nv true, false) := by
  cases rest
  · rw [addBits_leaf_last, if_pos hbrk]
  · rw [addBits_leaf_cons, if_pos hbrk]

theorem addBits_fst_ne_nil (peq : P → P → Bool) (v : Option P) (ow : Bool) :
    ∀ (bits : List Bool) (l r : N P) (nv : Option P) (lf : Bool),
      (addBits peq (N.node l r nv lf) bits v ow).1 ≠ N.nil := by
  intro bits l r nv lf
  have hms : ∀ m : N P, m ≠ N.nil → (mergeStep peq m).1 ≠ N.nil := by
    intro m hm
    rcases mergeStep_fst_cases peq m with h | ⟨w, h⟩ <;> rw [h]
    · exact hm
    · simp
  cases bits with
  | nil => rw [addBits_nil_bits]; simp
  | cons b rest =>
    cases lf with
    | true =>
      cases rest with
      | nil =>
        rw [addBits_leaf_last]
        split
        · simp
        · exact hms _ (assemble_ne_nil _ _ _ _ _)
      | cons r1 rs =>
        rw [addBits_leaf_cons]
        split
        · simp
        · simp only []
          split
          · exact hms _ (assemble_ne_nil _ _ _ _ _)
          · exact assemble_ne_nil _ _ _ _ _
    | false =>
      cases rest with
      | nil =>
        rw [addBits_internal_last]
        rcases htb : (if b then r else l) with _ | ⟨tl, tr, tv, tlf⟩
        · exact hms _ (assemble_ne_nil _ _ _ _ _)
        · simp only []
          split
          · exact hms _ (assemble_ne_nil _ _ _ _ _)
          · exact assemble_ne_nil _ _ _ _ _
      | cons r1 rs =>
        rw [addBits_internal_cons]
        have hite : ∀ (c : Bool) (m : N P), m ≠ N.nil →
            (if c = true then mergeStep peq m else (m, false)).1 ≠ N.nil := by
          intro c m hm
          cases c
          · simpa using hm
          · simpa using hms m hm
        exact hite _ _ (assemble_ne_nil _ _ _ _ _)

theorem pair_eq_extract {A B : Type} {x t : A} {y u : B}
    (h : (x, y) = (t, u)) : x = t ∧ y = u :=
  ⟨congrArg Prod.fst h, congrArg Prod.snd h⟩

/-! Computation lemmas for `mergeStep` and `addBits` on assembled nodes
(the node whose target-branch child was just rewritten); all hold by
unfolding once the branch bit is fixed. -/

theorem mergeStep_assemble_ob_nil (peq : P → P → Bool) (b : Bool)
    (x : Option P) (nvv : Option P) :
    mergeStep peq (assemble b (N.node N.nil N.nil x true) N.nil nvv false)
      = (assemble b (N.node N.nil N.nil x true) N.nil nvv false, false) := by
  cases b <;> rfl

theorem mergeStep_assemble_ob_int (peq : P → P → Bool) (b : Bool)
    (x : Option P) (oa obb : N P) (wv : Option P) (nvv : Option P) :
    mergeStep peq
        (assemble b (N.node N.nil N.nil x true) (N.node oa obb wv false) nvv false)
      = (assemble b (N.node N.nil N.nil x true) (N.node oa obb wv false) nvv false,
        false) := by
  cases b <;> rfl

theorem mergeStep_assemble_leaf_any (peq : P → P → Bool) (b : Bool)
    (x : Option P) (oa obb : N P) (wv : Option P) (nvv : Option P) :
    mergeStep peq
        (assemble b (N.node N.nil N.nil x true) (N.node oa obb wv true) nvv false)
      = if (if b then vequal peq wv x else vequal peq x wv) = true
        then (N.node N.nil N.nil (if b then wv else x) true, true)
        else (assemble b (N.node N.nil N.nil x true) (N.node oa obb wv true) nvv
          false, false) := by
  cases b <;> rfl

theorem addBits_assemble_last_node (peq : P → P → Bool) (b : Bool)
    (tl tr : N P) (tv : Option P) (tlf : Bool) (ob : N P) (nvv v : Option P)
    (ow : Bool) :
    addBits peq (assemble b (N.node tl tr tv tlf) ob nvv false) [b] v ow
      = if ow
        then mergeStep peq (assemble b (N.node N.nil N.nil v true) ob nvv false)
        else (assemble b (fill (N.node tl tr tv tlf) v).1 ob nvv false, false) := by
  cases b <;> rfl

theorem addBits_assemble_cons_node (peq : P → P → Bool) (b r1 : Bool)
    (rs : List Bool) (tl tr : N P) (tv : Option P) (tlf : Bool) (ob : N P)
    (nvv v : Option P) (ow : Bool) :
    addBits peq (assemble b (N.node tl tr tv tlf) ob nvv false) (b :: r1 :: rs) v ow
      = (let s := addBits peq (N.node tl tr tv tlf) (r1 :: rs) v ow
        if s.2 then mergeStep peq (assemble b s.1 ob nvv false)
        else (assemble b s.1 ob nvv false, false)) := by
  cases b <;> rfl

/-- After an `Add` descent whose final step wrote the fresh leaf `v` into
the target branch and ran the `compress` attempt, a second identical
descent changes nothing; and if the attempt collapsed the node, the
resulting leaf payload is `vequal` to `v`. -/
theorem idem_last_replace (peq : P → P → Bool)
    (hrefl : ∀ a, peq a a = true) (v : Option P) (ow : Bool) (b : Bool)
    (ob : N P) (nvv : Option P) :
    addBits peq
        ((mergeStep peq (assemble b (N.node N.nil N.nil v true) ob nvv false)).1)
        [b] v ow
      = ((mergeStep peq (assemble b (N.node N.nil N.nil v true) ob nvv false)).1,
        false) ∧
    ((mergeStep peq (assemble b (N.node N.nil N.nil v true) ob nvv false)).2
        = true →
      ∃ w, (mergeStep peq
          (assemble b (N.node N.nil N.nil v true) ob nvv false)).1
        = N.node N.nil N.nil w true ∧ vequal peq w v = true) := by
  have hfillv : (fill (N.node N.nil N.nil v true) v).1
      = N.node N.nil N.nil v true := congrArg Prod.fst (fill_leafN v v)
  rcases ob with _ | ⟨oa, obb, wv, olf⟩
  · rw [mergeStep_assemble_ob_nil]
    constructor
    · rw [addBits_assemble_last_node]
      cases ow
      · rw [if_neg (by simp), hfillv]
      · rw [if_pos rfl, mergeStep_assemble_ob_nil]
    · exact fun h => Bool.noConfusion h
  cases olf with
  | false =>
    rw [mergeStep_assemble_ob_int]
    constructor
    · rw [addBits_assemble_last_node]
      cases ow
      · rw [if_neg (by simp), hfillv]
      · rw [if_pos rfl, mergeStep_assemble_ob_int]
    · exact fun h => Bool.noConfusion h
  | true =>
    rw [mergeStep_assemble_leaf_any]
    by_cases hcnd : (if b then vequal peq wv v else vequal peq v wv) = true
    · rw [if_pos hcnd]
      have hcv : vequal peq (if b then wv else v) v = true := by
        cases b
        · exact vequal_refl peq hrefl v
        · exact hcnd
      constructor
      · exact addBits_leaf_break peq N.nil N.nil _ b [] v ow (by simp [hcv])
      · exact fun _ => ⟨if b then wv else v, rfl, hcv⟩
    · rw [if_neg hcnd]
      constructor
      · rw [addBits_assemble_last_node]
        cases ow
        · rw [if_neg (by simp), hfillv]
        · rw [if_pos rfl, mergeStep_assemble_leaf_any, if_neg hcnd]
      · exact fun h => Bool.noConfusion h

/-- After an `Add` descent step that rewrote the target-branch child
(result `(s1, s2)` of the recursive descent) and ran the conditional
`compress` attempt, a second identical descent changes nothing; and if a
collapse happened at this node, the resulting leaf payload is `vequal` to
`v`.  The hypotheses are the induction hypotheses for the recursive
descent. -/
theorem idem_cons_step (peq : P → P → Bool)
    (htrans : ∀ a b2 c, peq a b2 = true → peq b2 c = true → peq a c = true)
    (v : Option P) (ow : Bool) (b r1 : Bool) (rs : List Bool)
    (tl tr : N P) (tv : Option P) (tlf : Bool) (ob : N P) (nvv : Option P)
    (s1 : N P) (s2 : Bool)
    (hs : addBits peq (N.node tl tr tv tlf) (r1 :: rs) v ow = (s1, s2))
    (ihA : addBits peq s1 (r1 :: rs) v ow = (s1, false))
    (ihB : s2 = true → ∃ w, s1 = N.node N.nil N.nil w true ∧
      vequal peq w v = true) :
    addBits peq ((if s2 = true then mergeStep peq (assemble b s1 ob nvv false)
        else (assemble b s1 ob nvv false, false)).1) (b :: r1 :: rs) v ow
      = ((if s2 = true then mergeStep peq (assemble b s1 ob nvv false)
        else (assemble b s1 ob nvv false, false)).1, false) ∧
    ((if s2 = true then mergeStep peq (assemble b s1 ob nvv false)
        else (assemble b s1 ob nvv false, false)).2 = true →
      ∃ w, (if s2 = true then mergeStep peq (assemble b s1 ob nvv false)
        else (assemble b s1 ob nvv false, false)).1
          = N.node N.nil N.nil w true ∧ vequal peq w v = true) := by
  have hs1ne : s1 ≠ N.nil := by
    have := addBits_fst_ne_nil peq v ow (r1 :: rs) tl tr tv tlf
    rw [hs] at this
    exact this
  by_cases hs2 : s2 = true
  · obtain ⟨w, hw1, hwv⟩ := ihB hs2
    subst hw1
    rw [if_pos hs2]
    have hbw : ∀ (bb : Bool) (rest2 : List Bool),
        addBits peq (N.node N.nil N.nil w true) (bb :: rest2) v ow
          = (N.node N.nil N.nil w true, false) := fun bb rest2 =>
      addBits_leaf_break peq N.nil N.nil w bb rest2 v ow (by simp [hwv])
    rcases ob with _ | ⟨oa, obb, wv2, olf⟩
    · rw [mergeStep_assemble_ob_nil]
      constructor
      · rw [addBits_assemble_cons_node]
        show (let s := addBits peq (N.node N.nil N.nil w true) (r1 :: rs) v ow
          if s.2 then mergeStep peq (assemble b s.1 N.nil nvv false)
          else (assemble b s.1 N.nil nvv false, false)) = _
        rw [hbw]
        rfl
      · exact fun h => Bool.noConfusion h
    cases olf with
    | false =>
      rw [mergeStep_assemble_ob_int]
      constructor
      · rw [addBits_assemble_cons_node]
        show (let s := addBits peq (N.node N.nil N.nil w true) (r1 :: rs) v ow
          if s.2 then mergeStep peq
            (assemble b s.1 (N.node oa obb wv2 false) nvv false)
          else (assemble b s.1 (N.node oa obb wv2 false) nvv false, false)) = _
        rw [hbw]
        rfl
      · exact fun h => Bool.noConfusion h
    | true =>
      rw [mergeStep_assemble_leaf_any]
      by_cases hcnd : (if b then vequal peq wv2 w else vequal peq w wv2) = true
      · rw [if_pos hcnd]
        have hcv : vequal peq (if b then wv2 else w) v = true := by
          cases b
          · exact hwv
          · exact vequal_trans peq htrans hcnd hwv
        constructor
        · exact addBits_leaf_break peq N.nil N.nil _ b (r1 :: rs) v ow
            (by simp [hcv])
        · exact fun _ => ⟨if b then wv2 else w, rfl, hcv⟩
      · rw [if_neg hcnd]
        constructor
        · rw [addBits_assemble_cons_node]
          show (let s := addBits peq (N.node N.nil N.nil w true) (r1 :: rs) v ow
            if s.2 then mergeStep peq
              (assemble b s.1 (N.node oa obb wv2 true) nvv false)
            else (assemble b s.1 (N.node oa obb wv2 true) nvv false, false)) = _
          rw [hbw]
          rfl
        · exact fun h => Bool.noConfusion h
  · have hs2f : s2 = false := by
      cases h2 : s2
      · rfl
      · exact absurd h2 hs2
    rw [if_neg hs2]
    constructor
    · rcases hsh : s1 with _ | ⟨sa, sb, sv, slf⟩
      · exact absurd hsh hs1ne
      rw [addBits_assemble_cons_node]
      rw [hsh] at ihA
      show (let s := addBits peq (N.node sa sb sv slf) (r1 :: rs) v ow
        if s.2 then mergeStep peq
          (assemble b s.1 ob nvv false)
        else (assemble b s.1 ob nvv false, false)) = _
      rw [ihA]
      rfl
    · exact fun h => Bool.noConfusion h

/-- The heart of claim C7: a second identical `Add` descent leaves the
tree unchanged and never re-triggers a compression cascade; moreover
whenever a descent reports a collapse (`compress` merged the node it
returned), the resulting leaf payload is `vequal` to the inserted one.
The payload `Equal` capability is assumed reflexive, symmetric and
transitive. -/
theorem addBits_idem (peq : P → P → Bool)
    (hrefl : ∀ a, peq a a = true)
    (htrans : ∀ a b2 c, peq a b2 = true → peq b2 c = true → peq a c = true)
    (v : Option P) (ow : Bool) :
    ∀ (bits : List Bool) (n : N P),
      addBits peq ((addBits peq n bits v ow).1) bits v ow
        = ((addBits peq n bits v ow).1, false) ∧
      ((addBits peq n bits v ow).2 = true →
        ∃ w, (addBits peq n bits v ow).1 = N.node N.nil N.nil w true ∧
          vequal peq w v = true) := by
  intro bits
  induction bits with
  | nil =>
    intro n
    constructor
    · rw [addBits_nil_bits]
    · rw [addBits_nil_bits]
      exact fun h => Bool.noConfusion h
  | cons b rest ih =>
    intro n
    rcases n with _ | ⟨l, r, nv, lf⟩
    · constructor
      · rw [addBits_nil_node]
        show addBits peq N.nil (b :: rest) v ow = (N.nil, false)
        exact addBits_nil_node peq b rest v ow
      · rw [addBits_nil_node]
        exact fun h => Bool.noConfusion h
    rcases hE : addBits peq (N.node l r nv lf) (b :: rest) v ow with ⟨t1, u1⟩
    show addBits peq t1 (b :: rest) v ow = (t1, false) ∧
      (u1 = true → ∃ w, t1 = N.node N.nil N.nil w true ∧ vequal peq w v = true)
    cases lf with
    | true =>
      by_cases hbrk : (!ow || vequal peq nv v) = true
      · obtain ⟨ht, hu⟩ := pair_eq_extract
          ((addBits_leaf_break peq l r nv b rest v ow hbrk).symm.trans hE)
        subst ht; subst hu
        exact ⟨addBits_leaf_break peq l r nv b rest v ow hbrk,
          fun h => Bool.noConfusion h⟩
      · cases rest with
        | nil =>
          rw [addBits_leaf_last, if_neg hbrk] at hE
          obtain ⟨ht, hu⟩ := pair_eq_extract hE
          rw [← ht, ← hu]
          exact idem_last_replace peq hrefl v ow b (N.node N.nil N.nil nv true)
            none
        | cons r1 rs =>
          rw [addBits_leaf_cons, if_neg hbrk] at hE
          rcases hsv : addBits peq (N.node N.nil N.nil nv true) (r1 :: rs) v ow
            with ⟨s1, s2⟩
          rw [hsv] at hE
          have hE3 : (if s2 = true
              then mergeStep peq
                (assemble b s1 (N.node N.nil N.nil nv true) none false)
              else (assemble b s1 (N.node N.nil N.nil nv true) none false,
                false)) = (t1, u1) := hE
          obtain ⟨ht, hu⟩ := pair_eq_extract hE3
          rw [← ht, ← hu]
          have ihp := ih (N.node N.nil N.nil nv true)
          rw [hsv] at ihp
          exact idem_cons_step peq htrans v ow b r1 rs N.nil N.nil nv true
            (N.node N.nil N.nil nv true) none s1 s2 hsv ihp.1 ihp.2
    | false =>
      cases rest with
      | nil =>
        rw [addBits_internal_last] at hE
        rcases htb : (if b then r else l) with _ | ⟨tl, tr, tv, tlf⟩
        · rw [htb] at hE
          have hE2 : mergeStep peq
              (assemble b (N.node N.nil N.nil v true) (if b then l else r) nv
                false) = (t1, u1) := hE
          obtain ⟨ht, hu⟩ := pair_eq_extract hE2
          rw [← ht, ← hu]
          exact idem_last_replace peq hrefl v ow b (if b then l else r) nv
        · rw [htb] at hE
          have hE2 : (if ow = true
              then mergeStep peq
                (assemble b (N.node N.nil N.nil v true) (if b then l else r) nv
                  false)
              else (assemble b (fill (N.node tl tr tv tlf) v).1
                (if b then l else r) nv false, false)) = (t1, u1) := hE
          cases how : ow with
          | true =>
            rw [how] at hE2
            have hE3 : mergeStep peq
                (assemble b (N.node N.nil N.nil v true) (if b then l else r) nv
                  false) = (t1, u1) := hE2
            obtain ⟨ht, hu⟩ := pair_eq_extract hE3
            rw [← ht, ← hu]
            exact idem_last_replace peq hrefl v true b (if b then l else r) nv
          | false =>
            rw [how] at hE2
            have hE3 : (assemble b (fill (N.node tl tr tv tlf) v).1
                (if b then l else r) nv false, false) = (t1, u1) := hE2
            obtain ⟨ht, hu⟩ := pair_eq_extract hE3
            rw [← ht, ← hu]
            constructor
            · rcases hf : (fill (N.node tl tr tv tlf) v).1
                with _ | ⟨fa, fb, fv, flf⟩
              · exact absurd hf (fill_fst_ne_nil tl tr tv tlf v)
              rw [addBits_assemble_last_node]
              have hfi := (fill_idem v (N.node tl tr tv tlf)).1
              rw [hf] at hfi
              rw [if_neg (by simp), hfi]
            · exact fun h => Bool.noConfusion h
      | cons r1 rs =>
        rw [addBits_internal_cons] at hE
        rcases htb : (if b then r else l) with _ | ⟨tl, tr, tv, tlf⟩
        · rw [htb] at hE
          rcases hsv : addBits peq (N.node N.nil N.nil none false) (r1 :: rs)
              v ow with ⟨s1, s2⟩
          rw [hsv] at hE
          have hE3 : (if s2 = true
              then mergeStep peq (assemble b s1 (if b then l else r) nv false)
              else (assemble b s1 (if b then l else r) nv false, false))
              = (t1, u1) := hE
          obtain ⟨ht, hu⟩ := pair_eq_extract hE3
          rw [← ht, ← hu]
          have ihp := ih (N.node N.nil N.nil none false)
          rw [hsv] at ihp
          exact idem_cons_step peq htrans v ow b r1 rs N.nil N.nil none false
            (if b then l else r) nv s1 s2 hsv ihp.1 ihp.2
        · rw [htb] at hE
          rcases hsv : addBits peq (N.node tl tr tv tlf) (r1 :: rs) v ow
            with ⟨s1, s2⟩
          rw [hsv] at hE
          have hE3 : (if s2 = true
              then mergeStep peq (assemble b s1 (if b then l else r) nv false)
              else (assemble b s1 (if b then l else r) nv false, false))
              = (t1, u1) := hE
          obtain ⟨ht, hu⟩ := pair_eq_extract hE3
          rw [← ht, ← hu]
          have ihp := ih (N.node tl tr tv tlf)
          rw [hsv] at ihp
          exact idem_cons_step peq htrans v ow b r1 rs tl tr tv tlf
            (if b then l else r) nv s1 s2 hsv ihp.1 ihp.2

/-- C7: calling `Add` twice with the same record (block and payload) and
the same overwrite flag produces the same tree — and hence the same `Dump`
output — as calling it once, for every tree state, every record, and both
flag values, provided the payload `Equal` capability is reflexive and
transitive (as an equality comparison is). -/
theorem claim7_add_idempotent {P : Type} [DecidableEq P] (peq : P → P → Bool)
    (hrefl : ∀ a, peq a a = true)
    (htrans : ∀ a b2 c, peq a b2 = true → peq b2 c = true → peq a c = true)
    (t : N P) (pfx size : Nat) (v : Option P) (ow : Bool) :
    add peq (add peq t pfx size v ow) pfx size v ow = add peq t pfx size v ow ∧
    dump (add peq (add peq t pfx size v ow) pfx size v ow)
      = dump (add peq t pfx size v ow) := by
  have h := (addBits_idem peq hrefl htrans v ow (pfxBits pfx size) t).1
  have heq : add peq (add peq t pfx size v ow) pfx size v ow
      = add peq t pfx size v ow := by
    simp only [add]
    rw [h]
  exact ⟨heq, by rw [heq]⟩

/-- Concrete instance of `claim7_add_idempotent`: repeating
`Add(1.0.0.8/29, A, false)` on the tree that already contains
`1.0.0.0/29 (A)` and `1.0.0.8/29 (A)`. -/
theorem claim7_add_idempotent_witness :
    add natEq
        (add natEq (add natEq emptyTree (ipv4 1 0 0 0) 29 (some 0) false)
          (ipv4 1 0 0 8) 29 (some 0) false)
        (ipv4 1 0 0 8) 29 (some 0) false
      = add natEq (add natEq emptyTree (ipv4 1 0 0 0) 29 (some 0) false)
          (ipv4 1 0 0 8) 29 (some 0) false ∧
    dump (add natEq
        (add natEq (add natEq emptyTree (ipv4 1 0 0 0) 29 (some 0) false)
          (ipv4 1 0 0 8) 29 (some 0) false)
        (ipv4 1 0 0 8) 29 (some 0) false)
      = dump (add natEq (add natEq emptyTree (ipv4 1 0 0 0) 29 (some 0) false)
          (ipv4 1 0 0 8) 29 (some 0) false) :=
  claim7_add_idempotent natEq (fun a => by simp [natEq])
    (fun a b2 c h1 h2 => by
      simp [natEq] at h1 h2 ⊢
      omega)
    (add natEq emptyTree (ipv4 1 0 0 0) 29 (some 0) false)
    (ipv4 1 0 0 8) 29 (some 0) false

/-- Payload equality capability that deems any two payloads equal even
though Go `==` distinguishes them (a legitimate implementation of the
`Payload` interface, whose `Equal` method is arbitrary code). -/
abbrev allEq : Bool → Bool → Bool := fun _ _ => true

/-- C8 (counterexample): the claim says a leaf child is treated as resolved
exactly when `Payload.Equal` reports its payload equal to the new payload.
Here `Equal` (`allEq`) reports `some false` equal to `some true`, yet
`fill` — which compares with Go `==`, not with `Equal` — does not treat the
leaf as resolved: the subtree is reported not uniform and the leaf is kept
(a new sibling leaf is stamped instead of collapsing the node). -/
theorem claim8_counterexample :
    vequal allEq (some false) (some true) = true ∧
    (fill (N.node (N.node N.nil N.nil (some false) true) N.nil none false)
      ((some true : Option Bool))).2.2 = false ∧
    (fill (N.node (N.node N.nil N.nil (some false) true) N.nil none false)
      ((some true : Option Bool))).1
      = N.node (N.node N.nil N.nil (some false) true) (N.node N.nil N.nil (some true) true) none false := by
  decide

/-- C8 (amended): during `fill(node, payload)`, a leaf child is treated as
resolved exactly when its payload is *identical* to the new payload (Go
interface equality `==`, which coincides with `Payload.Equal` only for
payload types whose `Equal` agrees with `==`): if identical, the leaf is a
no-op contributing to collapsing its parent into a single leaf with the
new payload; otherwise the leaf is kept unchanged and the subtree is
reported not uniform. -/
theorem claim8_fill_resolves_by_identity {P : Type} [DecidableEq P]
    (la lb r : N P) (cv v nv : Option P) (nleaf : Bool) :
    (cv = v → fill (N.node (N.node la lb cv true) N.nil nv nleaf) v
      = (N.node N.nil N.nil v true, -1, true)) ∧
    (cv ≠ v → (fill (N.node (N.node la lb cv true) r nv nleaf) v).2.2 = false ∧
      nodeL (fill (N.node (N.node la lb cv true) r nv nleaf) v).1
        = N.node la lb cv true) := by
  constructor
  · intro h
    subst h
    simp [fill]
  · intro h
    rcases r with _ | ⟨ra, rb, rv, rleaf⟩
    · simp [fill, h, nodeL]
    · cases rleaf
      · simp [fill, h, nodeL]
      · by_cases hv : rv = v <;> simp [fill, h, hv, nodeL]

/-- Concrete instance of `claim8_fill_resolves_by_identity`, at `cv = v =
some 0` for the first part and `cv = some 1 ≠ v = some 0` for the second. -/
theorem claim8_fill_resolves_by_identity_witness :
    (fill (N.node (N.node N.nil N.nil (some 0) true) N.nil none false) ((some 0 : Option Nat)))
      = (N.node N.nil N.nil (some 0) true, -1, true) ∧
    ((fill (N.node (N.node N.nil N.nil (some 1) true) N.nil none false)
        ((some 0 : Option Nat))).2.2 = false ∧
      nodeL (fill (N.node (N.node N.nil N.nil (some 1) true) N.nil none false)
        ((some 0 : Option Nat))).1 = N.node N.nil N.nil (some 1) true) :=
  ⟨(claim8_fill_resolves_by_identity N.nil N.nil N.nil (some 0) (some 0) none
      false).1 rfl,
   (claim8_fill_resolves_by_identity N.nil N.nil N.nil (some 1) (some 0) none
      false).2 (by decide)⟩

/-! ### Arithmetic helpers -/

theorem countTrailOnes_mod (fuel : Nat) : ∀ x : Nat,
    x % 2 ^ countTrailOnes fuel x = 2 ^ countTrailOnes fuel x - 1 := by
  induction fuel with
  | zero => intro x; simp only [countTrailOnes, pow_zero]; omega
  | succ f ih =>
    intro x
    by_cases h : x % 2 = 1
    · have hx : countTrailOnes (f + 1) x = countTrailOnes f (x / 2) + 1 := by
        simp [countTrailOnes, h]
      rw [hx]
      have hmm : x % (2 * 2 ^ countTrailOnes f (x / 2)) =
          x % 2 + 2 * (x / 2 % 2 ^ countTrailOnes f (x / 2)) := Nat.mod_mul
      have hp : (2 : Nat) ^ (countTrailOnes f (x / 2) + 1) =
          2 * 2 ^ countTrailOnes f (x / 2) := by ring
      have h1 : 1 ≤ (2 : Nat) ^ countTrailOnes f (x / 2) := Nat.one_le_two_pow
      rw [hp, hmm, ih (x / 2)]
      omega
    · have hx : countTrailOnes (f + 1) x = 0 := by simp [countTrailOnes, h]
      rw [hx]; simp only [pow_zero]; omega

theorem countTrailOnes_two_pow_sub_one (fuel : Nat) : ∀ k : Nat, k ≤ fuel →
    countTrailOnes fuel (2 ^ k - 1) = k := by
  induction fuel with
  | zero => intro k hk; interval_cases k; simp [countTrailOnes]
  | succ f ih =>
    intro k hk
    cases k with
    | zero => simp [countTrailOnes]
    | succ k =>
      have hp : (2 : Nat) ^ (k + 1) = 2 * 2 ^ k := by ring
      have h1 : 1 ≤ (2 : Nat) ^ k := Nat.one_le_two_pow
      have hm : (2 ^ (k + 1) - 1) % 2 = 1 := by omega
      have hd : (2 ^ (k + 1) - 1) / 2 = 2 ^ k - 1 := by omega
      have hx : countTrailOnes (f + 1) (2 ^ (k + 1) - 1) =
          countTrailOnes f ((2 ^ (k + 1) - 1) / 2) + 1 := by
        simp [countTrailOnes, hm]
      rw [hx, hd, ih k (by omega)]

theorem msbPos_spec (fuel : Nat) : ∀ x : Nat, 0 < x → x < 2 ^ fuel →
    2 ^ msbPos fuel x ≤ x ∧ x < 2 ^ (msbPos fuel x + 1) := by
  induction fuel with
  | zero => intro x h1 h2; omega
  | succ f ih =>
    intro x h1 h2
    by_cases h : x / 2 = 0
    · have hx : msbPos (f + 1) x = 0 := by simp [msbPos, h]
      rw [hx]; omega
    · have hx : msbPos (f + 1) x = msbPos f (x / 2) + 1 := by simp [msbPos, h]
      have hf : (2 : Nat) ^ (f + 1) = 2 * 2 ^ f := by ring
      obtain ⟨ha, hb⟩ := ih (x / 2) (by omega) (by omega)
      have hp1 : (2 : Nat) ^ (msbPos f (x / 2) + 1) = 2 * 2 ^ msbPos f (x / 2) := by ring
      have hp2 : (2 : Nat) ^ (msbPos f (x / 2) + 1 + 1) =
          2 * 2 ^ (msbPos f (x / 2) + 1) := by ring
      rw [hx]; omega

theorem xor_mod_two_pow (x y k : Nat) :
    (x ^^^ y) % 2 ^ k = x % 2 ^ k ^^^ y % 2 ^ k := by
  apply Nat.eq_of_testBit_eq
  intro i
  simp only [Nat.testBit_mod_two_pow, Nat.testBit_xor]
  by_cases h : i < k <;> simp [h]

theorem lor_mod_two_pow (x y k : Nat) :
    (x ||| y) % 2 ^ k = x % 2 ^ k ||| y % 2 ^ k := by
  apply Nat.eq_of_testBit_eq
  intro i
  simp only [Nat.testBit_mod_two_pow, Nat.testBit_lor]
  by_cases h : i < k <;> simp [h]

theorem xor_div_two_pow (x y k : Nat) :
    (x ^^^ y) / 2 ^ k = x / 2 ^ k ^^^ y / 2 ^ k := by
  have h := Nat.shiftRight_eq_div_pow
  rw [← h (x ^^^ y) k, ← h x k, ← h y k]
  apply Nat.eq_of_testBit_eq
  intro i
  simp

theorem lor_div_two_pow (x y k : Nat) :
    (x ||| y) / 2 ^ k = x / 2 ^ k ||| y / 2 ^ k := by
  have h := Nat.shiftRight_eq_div_pow
  rw [← h (x ||| y) k, ← h x k, ← h y k]
  apply Nat.eq_of_testBit_eq
  intro i
  simp

theorem div_eq_of_xor_lt {x y k : Nat} (h : x ^^^ y < 2 ^ k) :
    x / 2 ^ k = y / 2 ^ k := by
  have h0 : (x ^^^ y) / 2 ^ k = 0 := Nat.div_eq_of_lt h
  rw [xor_div_two_pow] at h0
  exact Nat.xor_eq_zero.mp h0

theorem xor_lt_of_div_eq {x y k : Nat} (h : x / 2 ^ k = y / 2 ^ k) :
    x ^^^ y < 2 ^ k := by
  have h0 : (x ^^^ y) / 2 ^ k = 0 := by
    rw [xor_div_two_pow, h, Nat.xor_self]
  have h2 := Nat.div_add_mod (x ^^^ y) (2 ^ k)
  rw [h0, Nat.mul_zero, Nat.zero_add] at h2
  rw [← h2]
  exact Nat.mod_lt _ (Nat.two_pow_pos k)

theorem xor_cancel_of_xor_eq {a b : Nat} (h : a ^^^ b = b) : a = 0 := by
  have h2 : (a ^^^ b) ^^^ b = a := by
    rw [Nat.xor_assoc, Nat.xor_self, Nat.xor_zero]
  rw [h, Nat.xor_self] at h2
  omega

theorem lor_two_pow_sub_one_of_lt {u k : Nat} (h : u < 2 ^ k) :
    u ||| (2 ^ k - 1) = 2 ^ k - 1 := by
  apply Nat.eq_of_testBit_eq
  intro i
  simp only [Nat.testBit_lor, Nat.testBit_two_pow_sub_one]
  by_cases hik : i < k
  · simp [hik]
  · have hu : u.testBit i = false := by
      apply Nat.testBit_lt_two_pow
      calc u < 2 ^ k := h
        _ ≤ 2 ^ i := Nat.pow_le_pow_right (by norm_num) (by omega)
    simp [hik, hu]

theorem lor_eq_add_of_aligned {a k : Nat} (ha : a % 2 ^ k = 0) :
    a ||| (2 ^ k - 1) = a + (2 ^ k - 1) := by
  have h1 : 1 ≤ (2 : Nat) ^ k := Nat.one_le_two_pow
  have hdiv : (a ||| (2 ^ k - 1)) / 2 ^ k = a / 2 ^ k := by
    rw [lor_div_two_pow]
    have : (2 ^ k - 1) / 2 ^ k = 0 := Nat.div_eq_of_lt (by omega)
    rw [this, Nat.or_zero]
  have hmod : (a ||| (2 ^ k - 1)) % 2 ^ k = 2 ^ k - 1 := by
    rw [lor_mod_two_pow, ha, Nat.zero_or]
    exact Nat.mod_eq_of_lt (by omega)
  have e1 := Nat.div_add_mod (a ||| (2 ^ k - 1)) (2 ^ k)
  have e2 := Nat.div_add_mod a (2 ^ k)
  rw [hdiv, hmod] at e1
  omega

/-- The split point computed by `rangeToSubnet` (`^(i-1) & high` with
`i = 1 << m`) equals `high` rounded down to a multiple of `2 ^ m`. -/
theorem sp_eq (m high : Nat) (hm : m ≤ 32) (hh : high < 2 ^ 32) :
    ((2 ^ 32 - 1) ^^^ (1 <<< m - 1)) &&& high = high / 2 ^ m * 2 ^ m := by
  have hr : high / 2 ^ m * 2 ^ m = (high >>> m) <<< m := by
    rw [Nat.shiftLeft_eq, Nat.shiftRight_eq_div_pow]
  rw [hr, Nat.one_shiftLeft]
  apply Nat.eq_of_testBit_eq
  intro i
  simp only [Nat.testBit_land, Nat.testBit_xor, Nat.testBit_two_pow_sub_one,
    Nat.testBit_shiftLeft, Nat.testBit_shiftRight]
  by_cases h1 : i < 32
  · by_cases h2 : i < m
    · simp [h1, h2, show ¬ m ≤ i by omega]
    · have : m + (i - m) = i := by omega
      simp [h1, h2, show m ≤ i by omega, this]
  · have hhi : high.testBit i = false := by
      apply Nat.testBit_lt_two_pow
      calc high < 2 ^ 32 := hh
        _ ≤ 2 ^ i := Nat.pow_le_pow_right (by norm_num) (by omega)
    have hhi2 : high.testBit (m + (i - m)) = false := by
      apply Nat.testBit_lt_two_pow
      calc high < 2 ^ 32 := hh
        _ ≤ 2 ^ (m + (i - m)) := Nat.pow_le_pow_right (by norm_num) (by omega)
    simp [h1, hhi, hhi2, show ¬ i < m by omega]

/-- Unfolding of `rangeToSubnetF` at positive fuel on an ordered pair
(the swap at the top of the Go function is the identity). -/
theorem rangeToSubnetF_succ (fuel low high : Nat) (h : low ≤ high) :
    rangeToSubnetF (fuel + 1) low high =
      if (low ^^^ high) >>> countTrailOnes 33 (low ^^^ high) = 0 ∧
          low ||| (low ^^^ high) = high then
        [(low, 32 - countTrailOnes 33 (low ^^^ high))]
      else
        rangeToSubnetF fuel low
          ((((2 ^ 32 - 1) ^^^ (1 <<< msbPos 33 (low ^^^ high) - 1)) &&& high) - 1) ++
        rangeToSubnetF fuel
          (((2 ^ 32 - 1) ^^^ (1 <<< msbPos 33 (low ^^^ high) - 1)) &&& high) high := by
  have hgt : ¬ low > high := by omega
  simp only [rangeToSubnetF, if_neg hgt]

/-- Core of the in-a-subnet case, with the trailing-ones count abstracted
to a variable `t` (so that rewriting `high` cannot disturb it). -/
theorem rts_base_aux (low high t : Nat) (hle : low ≤ high) (hhigh : high < 2 ^ 32)
    (hmod : (low ^^^ high) % 2 ^ t = 2 ^ t - 1)
    (hc1 : (low ^^^ high) >>> t = 0) (hc2 : low ||| (low ^^^ high) = high) :
    tiles low [(low, 32 - t)] high ∧ canonicalB (low, 32 - t) := by
  have hlow32 : low < 2 ^ 32 := by omega
  have hone : 1 ≤ (2 : Nat) ^ t := Nat.one_le_two_pow
  have hd : (low ^^^ high) / 2 ^ t = 0 := by
    rw [← Nat.shiftRight_eq_div_pow]; exact hc1
  have h2 := Nat.div_add_mod (low ^^^ high) (2 ^ t)
  rw [hd, Nat.mul_zero, Nat.zero_add] at h2
  have hval : low ^^^ high = 2 ^ t - 1 := by omega
  have hxlt : low ^^^ high < 2 ^ 32 :=
    xor_lt_of_div_eq (by rw [Nat.div_eq_of_lt hlow32, Nat.div_eq_of_lt hhigh])
  have ht32 : t ≤ 32 := by
    by_contra hgt
    have hmono : (2 : Nat) ^ 33 ≤ 2 ^ t :=
      Nat.pow_le_pow_right (by norm_num) (by omega)
    have h33 : (2 : Nat) ^ 33 = 2 ^ 32 * 2 := by ring
    omega
  have hlor := lor_mod_two_pow low (low ^^^ high) t
  rw [hc2, hmod] at hlor
  have hh2 : high % 2 ^ t = 2 ^ t - 1 := by
    rw [hlor]
    exact lor_two_pow_sub_one_of_lt (Nat.mod_lt _ (Nat.two_pow_pos t))
  have halign : low % 2 ^ t = 0 := by
    have hmix := xor_mod_two_pow low high t
    rw [hmod, hh2] at hmix
    exact xor_cancel_of_xor_eq hmix.symm
  have h5 : low ||| (low ^^^ high) = low + (2 ^ t - 1) := by
    rw [hval]; exact lor_eq_add_of_aligned halign
  rw [hc2] at h5
  have hsz : 32 - (32 - t) = t := by omega
  refine ⟨⟨rfl, ?_, ?_⟩, ?_, hlow32, ?_⟩
  · show low + (2 ^ (32 - (32 - t)) - 1) ≤ high
    rw [hsz]; omega
  · show low + (2 ^ (32 - (32 - t)) - 1) + 1 = high + 1
    rw [hsz]; omega
  · show 32 - t ≤ 32
    omega
  · show low % 2 ^ (32 - (32 - t)) = 0
    rw [hsz]; exact halign

/-- When the in-a-subnet test of `rangeToSubnet` succeeds, the single
emitted block is a canonical block tiling exactly `[low, high]`. -/
theorem rts_base (low high : Nat) (hle : low ≤ high) (hhigh : high < 2 ^ 32)
    (hcond : (low ^^^ high) >>> countTrailOnes 33 (low ^^^ high) = 0 ∧
      low ||| (low ^^^ high) = high) :
    tiles low [(low, 32 - countTrailOnes 33 (low ^^^ high))] high ∧
    canonicalB (low, 32 - countTrailOnes 33 (low ^^^ high)) :=
  rts_base_aux low high (countTrailOnes 33 (low ^^^ high)) hle hhigh
    (countTrailOnes_mod 33 (low ^^^ high)) hcond.1 hcond.2

/-- A list exactly covering a nonempty range is nonempty. -/
theorem covers_nonempty {M : List (Nat × Nat)} {lo hi : Nat}
    (h : coversExactly M lo hi) (hle : lo ≤ hi) : 1 ≤ M.length := by
  obtain ⟨b, hb, -⟩ := (h lo).mpr ⟨le_refl lo, hle⟩
  cases M with
  | nil => simp at hb
  | cons c cs => simp

/-- Splitting a list by a Boolean test preserves the total length. -/
theorem filter_split_length {α : Type} (p : α → Bool) : ∀ M : List α,
    (M.filter p).length + (M.filter (fun a => ! p a)).length = M.length := by
  intro M
  induction M with
  | nil => rfl
  | cons a M ih =>
    cases h : p a <;> simp [List.filter_cons, h] <;> omega

/-- Every block of a tiling starts at or after the left end. -/
theorem tiles_start_le : ∀ (L : List (Nat × Nat)) (lo hi : Nat), tiles lo L hi →
    ∀ b ∈ L, lo ≤ b.1 := by
  intro L
  induction L with
  | nil => intro lo hi _ b hb; simp at hb
  | cons c cs ih =>
    intro lo hi ht b hb
    obtain ⟨h1, h2, h3⟩ := ht
    rcases List.mem_cons.mp hb with rfl | hb2
    · omega
    · have := ih (blockEnd c + 1) hi h3 b hb2
      have hce : c.1 ≤ blockEnd c := Nat.le_add_right _ _
      omega

/-- A tiling is sorted: every block ends strictly before the next begins. -/
theorem tiles_pairwise : ∀ (L : List (Nat × Nat)) (lo hi : Nat), tiles lo L hi →
    List.Pairwise (fun b c => blockEnd b < c.1) L := by
  intro L
  induction L with
  | nil => intro lo hi _; exact List.Pairwise.nil
  | cons c cs ih =>
    intro lo hi ht
    obtain ⟨h1, h2, h3⟩ := ht
    refine List.Pairwise.cons ?_ (ih (blockEnd c + 1) hi h3)
    intro b hb
    have := tiles_start_le cs (blockEnd c + 1) hi h3 b hb
    omega

/-- A tiling of `[lo, hi]` covers exactly `[lo, hi]`. -/
theorem tiles_covers : ∀ (L : List (Nat × Nat)) (lo hi : Nat), tiles lo L hi →
    coversExactly L lo hi := by
  intro L
  induction L with
  | nil =>
    intro lo hi ht a
    have ht2 : lo = hi + 1 := ht
    simp only [List.not_mem_nil, false_and, exists_false]
    constructor
    · intro h; exact h.elim
    · intro h; obtain ⟨h1, h2⟩ := h; omega
  | cons c cs ih =>
    intro lo hi ht a
    obtain ⟨h1, h2, h3⟩ := ht
    have hcs := ih (blockEnd c + 1) hi h3 a
    have hce : c.1 ≤ blockEnd c := Nat.le_add_right _ _
    constructor
    · intro h
      obtain ⟨b, hb, hm1, hm2⟩ := h
      rcases List.mem_cons.mp hb with rfl | hb2
      · omega
      · have := hcs.mp ⟨b, hb2, hm1, hm2⟩
        omega
    · intro h
      by_cases hin : a ≤ blockEnd c
      · exact ⟨c, List.mem_cons_self c cs, by omega, hin⟩
      · obtain ⟨b, hb, hm⟩ := hcs.mpr (by omega)
        exact ⟨b, List.mem_cons_of_mem c hb, hm⟩

/-- Two adjacent tilings concatenate to a tiling. -/
theorem tiles_append : ∀ (L1 : List (Nat × Nat)) (lo mid : Nat), tiles lo L1 mid →
    ∀ (L2 : List (Nat × Nat)) (hi : Nat), tiles (mid + 1) L2 hi → mid ≤ hi →
    tiles lo (L1 ++ L2) hi := by
  intro L1
  induction L1 with
  | nil =>
    intro lo mid h1 L2 hi h2 hmh
    have hx : lo = mid + 1 := h1
    rw [List.nil_append, hx]
    exact h2
  | cons c cs ih =>
    intro lo mid h1 L2 hi h2 hmh
    obtain ⟨ha, hb, hc⟩ := h1
    exact ⟨ha, by omega, ih (blockEnd c + 1) mid hc L2 hi h2 hmh⟩

/-- Main inductive specification of `rangeToSubnetF`: with enough fuel, on
an ordered 32-bit range whose endpoints agree above bit `j`, the function
returns a canonical exact tiling of `[low, high]` that is no longer than
any list of canonical blocks covering exactly the same range. -/
theorem rangeToSubnetF_spec : ∀ j : Nat, ∀ fuel : Nat, j ≤ fuel →
    ∀ low high : Nat, low ≤ high → high < 2 ^ 32 → (low ^^^ high) < 2 ^ j →
    tiles low (rangeToSubnetF (fuel + 1) low high) high ∧
    (∀ b ∈ rangeToSubnetF (fuel + 1) low high, canonicalB b) ∧
    (∀ M : List (Nat × Nat), (∀ b ∈ M, canonicalB b) → coversExactly M low high →
      (rangeToSubnetF (fuel + 1) low high).length ≤ M.length) := by
  intro j
  induction j with
  | zero =>
    intro fuel _ low high hle hhigh hxor
    have h0 : low ^^^ high = 0 := by simpa using hxor
    have heq : low = high := Nat.xor_eq_zero.mp h0
    have hcond : (low ^^^ high) >>> countTrailOnes 33 (low ^^^ high) = 0 ∧
        low ||| (low ^^^ high) = high := by
      constructor
      · rw [h0]; simp
      · rw [h0, Nat.or_zero]; exact heq
    rw [rangeToSubnetF_succ fuel low high hle, if_pos hcond]
    obtain ⟨ht, hcan⟩ := rts_base low high hle hhigh hcond
    refine ⟨ht, ?_, ?_⟩
    · intro b hb
      rw [List.mem_singleton] at hb
      rw [hb]
      exact hcan
    · intro M hMc hMcov
      simpa using covers_nonempty hMcov hle
  | succ j ih =>
    intro fuel hjf low high hle hhigh hxor
    obtain ⟨f, rfl⟩ : ∃ f, fuel = f + 1 := ⟨fuel - 1, by omega⟩
    rw [rangeToSubnetF_succ (f + 1) low high hle]
    by_cases hc : (low ^^^ high) >>> countTrailOnes 33 (low ^^^ high) = 0 ∧
        low ||| (low ^^^ high) = high
    · rw [if_pos hc]
      obtain ⟨ht, hcan⟩ := rts_base low high hle hhigh hc
      refine ⟨ht, ?_, ?_⟩
      · intro b hb
        rw [List.mem_singleton] at hb
        rw [hb]
        exact hcan
      · intro M hMc hMcov
        simpa using covers_nonempty hMcov hle
    · rw [if_neg hc]
      have hlow32 : low < 2 ^ 32 := by omega
      have hxlt : low ^^^ high < 2 ^ 32 :=
        xor_lt_of_div_eq (by rw [Nat.div_eq_of_lt hlow32, Nat.div_eq_of_lt hhigh])
      have hne : low ^^^ high ≠ 0 := by
        intro h0
        apply hc
        constructor
        · rw [h0]; simp
        · rw [h0, Nat.or_zero]; exact Nat.xor_eq_zero.mp h0
      have hx33 : low ^^^ high < 2 ^ 33 := by
        have h32 : (2:Nat) ^ 32 ≤ 2 ^ 33 := by norm_num
        omega
      obtain ⟨hm1, hm2⟩ := msbPos_spec 33 (low ^^^ high) (by omega) hx33
      revert hm1 hm2
      generalize msbPos 33 (low ^^^ high) = m
      intro hm1 hm2
      have hm31 : m ≤ 31 := by
        by_contra hgt
        have hmono : (2:Nat) ^ 32 ≤ 2 ^ m := Nat.pow_le_pow_right (by norm_num) (by omega)
        omega
      have hmj : m ≤ j := by
        by_contra hgt
        have hmono : (2:Nat) ^ (j + 1) ≤ 2 ^ m := Nat.pow_le_pow_right (by norm_num) (by omega)
        omega
      rw [sp_eq m high (by omega) hhigh]
      set sp := high / 2 ^ m * 2 ^ m with hspdef
      clear_value sp
      have hone : 1 ≤ (2:Nat) ^ m := Nat.one_le_two_pow
      have hdiv1 : (low ^^^ high) / 2 ^ m = 1 := by
        have hp : (2:Nat) ^ (m + 1) = 2 * 2 ^ m := by ring
        have hlo : 1 * 2 ^ m ≤ low ^^^ high := by omega
        have ha : 1 ≤ (low ^^^ high) / 2 ^ m :=
          (Nat.le_div_iff_mul_le (Nat.two_pow_pos m)).mpr hlo
        have hb : (low ^^^ high) / 2 ^ m < 2 :=
          (Nat.div_lt_iff_lt_mul (Nat.two_pow_pos m)).mpr (by omega)
        omega
      have hXor1 : low / 2 ^ m ^^^ high / 2 ^ m = 1 := by
        rw [← xor_div_two_pow]; exact hdiv1
      have hXle : low / 2 ^ m ≤ high / 2 ^ m := Nat.div_le_div_right hle
      have hXd2 : low / 2 ^ m / 2 = high / 2 ^ m / 2 := by
        have hd := div_eq_of_xor_lt (x := low / 2 ^ m) (y := high / 2 ^ m) (k := 1)
          (by rw [hXor1]; norm_num)
        simpa using hd
      have hXmodne : ¬ low / 2 ^ m % 2 = high / 2 ^ m % 2 := by
        intro heq
        have hmx := xor_mod_two_pow (low / 2 ^ m) (high / 2 ^ m) 1
        rw [hXor1] at hmx
        simp only [pow_one] at hmx
        rw [heq, Nat.xor_self] at hmx
        omega
      have hY : high / 2 ^ m = low / 2 ^ m + 1 := by omega
      have hXe : low / 2 ^ m % 2 = 0 := by omega
      obtain ⟨W, hW⟩ : ∃ w, w = 2 ^ m * (low / 2 ^ m) := ⟨_, rfl⟩
      have heq1 : sp = W + 2 ^ m := by
        rw [hspdef, hY, hW]; ring
      have hlowdm : W + low % 2 ^ m = low := by
        rw [hW]; exact Nat.div_add_mod low (2 ^ m)
      have hlowmlt : low % 2 ^ m < 2 ^ m := Nat.mod_lt _ (Nat.two_pow_pos m)
      have hlowlt : low < sp := by omega
      have hsple : sp ≤ high := by rw [hspdef]; exact Nat.div_mul_le_self high (2 ^ m)
      have hsppos : 1 ≤ sp := by omega
      have hspdiv : sp / 2 ^ m = high / 2 ^ m := by
        rw [hspdef]; exact Nat.mul_div_cancel _ (Nat.two_pow_pos m)
      have hsp1div : (sp - 1) / 2 ^ m = low / 2 ^ m := by
        have heq2 : sp - 1 = 2 ^ m * (low / 2 ^ m) + (2 ^ m - 1) := by
          rw [← hW]; omega
        have hd0 : (2 ^ m - 1) / 2 ^ m = 0 := Nat.div_eq_of_lt (by omega)
        rw [heq2, Nat.mul_add_div (Nat.two_pow_pos m), hd0]
        omega
      have hchild1 : low ^^^ (sp - 1) < 2 ^ m := xor_lt_of_div_eq hsp1div.symm
      have hchild2 : sp ^^^ high < 2 ^ m := xor_lt_of_div_eq hspdiv
      have hpowmj : (2:Nat) ^ m ≤ 2 ^ j := Nat.pow_le_pow_right (by norm_num) hmj
      obtain ⟨ht1, hcan1, hmin1⟩ := ih f (by omega) low (sp - 1) (by omega) (by omega)
        (by omega)
      obtain ⟨ht2, hcan2, hmin2⟩ := ih f (by omega) sp high hsple hhigh (by omega)
      refine ⟨?_, ?_, ?_⟩
      · have hspm : sp - 1 + 1 = sp := by omega
        have ht2x : tiles (sp - 1 + 1) (rangeToSubnetF (f + 1) sp high) high := by
          rw [hspm]; exact ht2
        exact tiles_append _ low (sp - 1) ht1 _ high ht2x (by omega)
      · intro b hb
        rcases List.mem_append.mp hb with h | h
        · exact hcan1 b h
        · exact hcan2 b h
      · intro M hMc hMcov
        have hnc : ∀ b ∈ M, ¬ (memB (sp - 1) b ∧ memB sp b) := by
          rintro ⟨p, s⟩ hbM ⟨hcr1, hcr2⟩
          simp only [memB, blockEnd] at hcr1 hcr2
          obtain ⟨hs32, hp32, hpal⟩ := hMc (p, s) hbM
          simp only at hs32 hp32 hpal
          have hLone : 1 ≤ (2:Nat) ^ (32 - s) := Nat.one_le_two_pow
          by_cases hcase : 32 - s ≤ m
          · have hLd : (2:Nat) ^ (32 - s) ∣ 2 ^ m := pow_dvd_pow 2 hcase
            have h2msp : (2:Nat) ^ m ∣ sp := by
              rw [hspdef]; exact dvd_mul_left _ _
            have hLsp : (2:Nat) ^ (32 - s) ∣ sp := dvd_trans hLd h2msp
            have hLp : (2:Nat) ^ (32 - s) ∣ p := Nat.dvd_of_mod_eq_zero hpal
            have hLd2 : (2:Nat) ^ (32 - s) ∣ sp - p := Nat.dvd_sub' hLsp hLp
            have hLle : (2:Nat) ^ (32 - s) ≤ sp - p := Nat.le_of_dvd (by omega) hLd2
            omega
          · have hQ0 : 0 < (2:Nat) ^ (m + 1) := Nat.two_pow_pos _
            have hQ1 : 1 ≤ (2:Nat) ^ (m + 1) := Nat.one_le_two_pow
            have hQmod : p % 2 ^ (m + 1) = 0 :=
              Nat.mod_eq_zero_of_dvd
                (dvd_trans (pow_dvd_pow 2 (by omega)) (Nat.dvd_of_mod_eq_zero hpal))
            have hplow : low ≤ p ∧ p ≤ high := (hMcov p).mp
              ⟨(p, s), hbM, by simp only [memB, blockEnd]; omega⟩
            have hpend : low ≤ p + (2 ^ (32 - s) - 1) ∧ p + (2 ^ (32 - s) - 1) ≤ high :=
              (hMcov (p + (2 ^ (32 - s) - 1))).mp
                ⟨(p, s), hbM, by simp only [memB, blockEnd]; omega⟩
            have hXA : low / 2 ^ (m + 1) = low / 2 ^ m / 2 := by
              have hp : (2:Nat) ^ (m + 1) = 2 ^ m * 2 := by ring
              rw [Nat.div_div_eq_div_mul, hp]
            have hAeq : low / 2 ^ (m + 1) = high / 2 ^ (m + 1) := div_eq_of_xor_lt hm2
            have hX2 : low / 2 ^ m = 2 * (low / 2 ^ (m + 1)) := by
              rw [hXA]; omega
            obtain ⟨V, hV⟩ : ∃ v, v = 2 ^ (m + 1) * (low / 2 ^ (m + 1)) := ⟨_, rfl⟩
            have hWV : W = V := by rw [hW, hV, hX2]; ring
            have hspQA : sp = V + 2 ^ m := by omega
            have hlowdmQ : V + low % 2 ^ (m + 1) = low := by
              rw [hV]; exact Nat.div_add_mod low (2 ^ (m + 1))
            have hlowmQlt : low % 2 ^ (m + 1) < 2 ^ (m + 1) := Nat.mod_lt _ hQ0
            have hQQ : (2:Nat) ^ (m + 1) = 2 * 2 ^ m := by ring
            have hsp1Qdiv : (sp - 1) / 2 ^ (m + 1) = low / 2 ^ (m + 1) := by
              have hx : sp - 1 = 2 ^ (m + 1) * (low / 2 ^ (m + 1)) + (2 ^ m - 1) := by
                rw [← hV]; omega
              have hd0 : (2 ^ m - 1) / 2 ^ (m + 1) = 0 := Nat.div_eq_of_lt (by omega)
              rw [hx, Nat.mul_add_div hQ0, hd0]
              omega
            have hpdivle : p / 2 ^ (m + 1) ≤ low / 2 ^ (m + 1) := by
              have hd : p / 2 ^ (m + 1) ≤ (sp - 1) / 2 ^ (m + 1) :=
                Nat.div_le_div_right (by omega)
              omega
            have hpdivge : low / 2 ^ (m + 1) ≤ p / 2 ^ (m + 1) :=
              Nat.div_le_div_right hplow.1
            have hpdm := Nat.div_add_mod p (2 ^ (m + 1))
            have hpV : p = V := by
              have hx : p / 2 ^ (m + 1) = low / 2 ^ (m + 1) := by omega
              rw [hx, ← hV, hQmod] at hpdm
              omega
            have hlowmodQ : low % 2 ^ (m + 1) = 0 := by omega
            have hQL : (2:Nat) ^ (m + 1) ≤ 2 ^ (32 - s) :=
              Nat.pow_le_pow_right (by norm_num) (by omega)
            have hhighdmQ := Nat.div_add_mod high (2 ^ (m + 1))
            rw [← hAeq, ← hV] at hhighdmQ
            have hhighmQlt : high % 2 ^ (m + 1) < 2 ^ (m + 1) := Nat.mod_lt _ hQ0
            have hhigh_eq : high = V + (2 ^ (m + 1) - 1) := by omega
            have hhighmodQ : high % 2 ^ (m + 1) = 2 ^ (m + 1) - 1 := by omega
            have hxmodQ := xor_mod_two_pow low high (m + 1)
            rw [hlowmodQ, hhighmodQ, Nat.zero_xor] at hxmodQ
            have hxdivQ : (low ^^^ high) / 2 ^ (m + 1) = 0 := by
              rw [xor_div_two_pow, hAeq, Nat.xor_self]
            have hxdm := Nat.div_add_mod (low ^^^ high) (2 ^ (m + 1))
            rw [hxdivQ, Nat.mul_zero, Nat.zero_add] at hxdm
            have hxval : low ^^^ high = 2 ^ (m + 1) - 1 := by omega
            apply hc
            constructor
            · rw [hxval, countTrailOnes_two_pow_sub_one 33 (m + 1) (by omega),
                Nat.shiftRight_eq_div_pow]
              exact Nat.div_eq_of_lt (by omega)
            · rw [hxval, lor_eq_add_of_aligned hlowmodQ]
              omega
        have hMlcov : coversExactly (List.filter (fun b => decide (blockEnd b < sp)) M)
            low (sp - 1) := by
          intro a
          constructor
          · rintro ⟨b, hb, ha1, ha2⟩
            obtain ⟨hbM, hbP⟩ := List.mem_filter.mp hb
            have hbP2 : blockEnd b < sp := of_decide_eq_true hbP
            have hcov := (hMcov a).mp ⟨b, hbM, ha1, ha2⟩
            omega
          · rintro ⟨ha1, ha2⟩
            obtain ⟨b, hbM, hb1, hb2⟩ := (hMcov a).mpr ⟨ha1, by omega⟩
            refine ⟨b, List.mem_filter.mpr ⟨hbM, decide_eq_true ?_⟩, hb1, hb2⟩
            by_contra hbe
            exact hnc b hbM ⟨⟨by omega, by omega⟩, by omega, by omega⟩
        have hMrcov : coversExactly (List.filter (fun b => ! decide (blockEnd b < sp)) M)
            sp high := by
          intro a
          constructor
          · rintro ⟨b, hb, ha1, ha2⟩
            obtain ⟨hbM, hbP⟩ := List.mem_filter.mp hb
            have hbP2 : ¬ blockEnd b < sp := by simpa using hbP
            have hcov := (hMcov a).mp ⟨b, hbM, ha1, ha2⟩
            constructor
            · by_contra hlt
              exact hnc b hbM ⟨⟨by omega, by omega⟩, by omega, by omega⟩
            · exact hcov.2
          · rintro ⟨ha1, ha2⟩
            obtain ⟨b, hbM, hb1, hb2⟩ := (hMcov a).mpr ⟨by omega, ha2⟩
            refine ⟨b, List.mem_filter.mpr ⟨hbM, ?_⟩, hb1, hb2⟩
            have hend : ¬ blockEnd b < sp := by omega
            simpa using hend
        have hlen : (List.filter (fun b => decide (blockEnd b < sp)) M).length +
            (List.filter (fun b => ! decide (blockEnd b < sp)) M).length = M.length := by
          simpa using filter_split_length (fun b => decide (blockEnd b < sp)) M
        have hle1 := hmin1 _ (fun b hb => hMc b (List.mem_filter.mp hb).1) hMlcov
        have hle2 := hmin2 _ (fun b hb => hMc b (List.mem_filter.mp hb).1) hMrcov
        rw [List.length_append]
        omega

/-- **C3.** For every pair of 32-bit addresses `low ≤ high`,
`rangeToSubnet` terminates (the fuel of 64 is never exhausted: the result
tiles the nonempty range, which an exhausted branch could not) and returns
the minimal list of canonical CIDR blocks whose union is exactly the
inclusive range `[low, high]`, pairwise disjoint and sorted in ascending
address order (each block ends strictly before the next begins); in
particular on `[192.168.0.2, 192.168.0.10]` it returns exactly
`192.168.0.2/31, 192.168.0.4/30, 192.168.0.8/31, 192.168.0.10/32`, in
that order. -/
theorem claim3_range_to_subnet_minimal (low high : Nat)
    (hle : low ≤ high) (hhigh : high < 2 ^ 32) :
    tiles low (rangeToSubnet low high) high ∧
    coversExactly (rangeToSubnet low high) low high ∧
    (∀ b ∈ rangeToSubnet low high, canonicalB b) ∧
    List.Pairwise (fun b c => blockEnd b < c.1) (rangeToSubnet low high) ∧
    (∀ M : List (Nat × Nat), (∀ b ∈ M, canonicalB b) → coversExactly M low high →
      (rangeToSubnet low high).length ≤ M.length) ∧
    rangeToSubnet (ipv4 192 168 0 2) (ipv4 192 168 0 10) =
      [(ipv4 192 168 0 2, 31), (ipv4 192 168 0 4, 30), (ipv4 192 168 0 8, 31),
       (ipv4 192 168 0 10, 32)] := by
  have hlow32 : low < 2 ^ 32 := by omega
  have hx : low ^^^ high < 2 ^ 32 :=
    xor_lt_of_div_eq (by rw [Nat.div_eq_of_lt hlow32, Nat.div_eq_of_lt hhigh])
  obtain ⟨ht, hcan, hmin⟩ := rangeToSubnetF_spec 32 63 (by omega) low high hle hhigh hx
  have hrw : rangeToSubnet low high = rangeToSubnetF (63 + 1) low high := rfl
  refine ⟨?_, ?_, ?_, ?_, ?_, ?_⟩
  · rw [hrw]; exact ht
  · rw [hrw]; exact tiles_covers _ low high ht
  · rw [hrw]; exact hcan
  · rw [hrw]; exact tiles_pairwise _ low high ht
  · intro M h1 h2
    rw [hrw]
    exact hmin M h1 h2
  · decide

theorem claim3_range_to_subnet_minimal_witness :
    ipv4 10 0 0 1 ≤ ipv4 10 0 0 14 ∧ ipv4 10 0 0 14 < 2 ^ 32 ∧
    tiles (ipv4 10 0 0 1) (rangeToSubnet (ipv4 10 0 0 1) (ipv4 10 0 0 14))
      (ipv4 10 0 0 14) :=
  ⟨by decide, by decide,
    (claim3_range_to_subnet_minimal (ipv4 10 0 0 1) (ipv4 10 0 0 14)
      (by decide) (by decide)).1⟩

end Geoip

end Goutil
